import Mathlib

/-!
# kcompress_tool: a shallow embedding of the line-oriented record codec

Sources embedded here:

* `kpc/compress_json.cpp`   : `percentile`, `calculate_total`, `compress_file`
* `kpc/decompress_json.cpp` : `percentile`, `decompress_file`
* `kpc/compare_files.cpp`   : `compare_files`

Conventions.

* A byte (`char`) is a `Fin 256`; a file, a `std::string` and a `std::vector<char>` are
  lists of bytes.
* `size_t` is 64 bits wide; a `size_t` value is a `Nat` reduced modulo `2 ^ 64` wherever the
  source can wrap.  Its object representation is little endian, 8 bytes.
* `double` is read as exact rational arithmetic (`ℚ`).
* The zstd library, the clock, the memory the system can provide and the flushing of an
  output stream that is never closed are not part of the repository; they are the fields of
  `Env`.
* An operation whose behaviour is undefined in the source (reading an element of an empty
  vector, indexing out of range) or a division by a zero count evaluates to `none`.
-/

namespace KCompress

/-! ## Bytes and `size_t` -/

/-- One `char` of a file or buffer. -/
abbrev Byte := Fin 256

/-- Number of values of a `size_t` (64-bit target). -/
def SIZE_T : Nat := 2 ^ 64

/-- The byte holding the low eight bits of `n`. -/
def Byte.ofNat (n : Nat) : Byte := ⟨n % 256, Nat.mod_lt _ (by decide)⟩

/-- The first `k` bytes of the little-endian representation of `n`. -/
def le_bytes : Nat → Nat → List Byte
  | 0, _ => []
  | k + 1, n => Byte.ofNat n :: le_bytes k (n / 256)

/-- The number a little-endian byte sequence stands for. -/
def le_value : List Byte → Nat
  | [] => 0
  | b :: bs => b.val + 256 * le_value bs

/-- Object representation of a `size_t`, as written by
`write(reinterpret_cast<char*>(&x), sizeof(x))`. -/
def size_t_bytes (n : Nat) : List Byte := le_bytes 8 (n % SIZE_T)

/-- The line-feed character, `'\n'`. -/
def NL : Byte := 10

/-! ## External collaborators -/

/-- What the program takes from outside the repository.

* `compressBound`, `compress`, `decompress`: the zstd library with the loaded dictionary;
  `compress level src` and `decompress src` are `none` when `ZSTD_isError` holds of the result.
* `createCDict dict`, `createDDict dict`: whether a context and a dictionary object can be
  built from the dictionary bytes.
* `elapsed i`: the duration, in milliseconds, the clock measures while line (or frame)
  number `i` is processed.
* `alloc n`: whether the system can provide the memory of a `std::vector<char>` of `n` bytes.
* `flushed out`: of the bytes `out` written to an output stream, those that have reached the
  file when the process is terminated without the stream having been closed. -/
structure Env where
  compressBound : Nat → Nat
  compress : Int → List Byte → Option (List Byte)
  decompress : List Byte → Option (List Byte)
  createCDict : List Byte → Bool
  createDDict : List Byte → Bool
  elapsed : Nat → ℚ
  alloc : Nat → Bool
  flushed : List Byte → List Byte

/-- The call `ZSTD_compress_usingCDict(cctx, dst, dstCapacity, src, srcSize, cdict)` at the
level last set on the context: an error when the library fails or the result does not fit
into `dstCapacity` bytes. -/
def ZSTD_compress_usingCDict (E : Env) (level : Int) (dstCapacity : Nat) (src : List Byte) :
    Option (List Byte) :=
  match E.compress level src with
  | some c => if c.length ≤ dstCapacity then some c else none
  | none => none

/-- The call `ZSTD_decompress_usingDDict(dctx, dst, dstCapacity, src, srcSize, ddict)`: an
error when the library fails or the result does not fit into `dstCapacity` bytes. -/
def ZSTD_decompress_usingDDict (E : Env) (dstCapacity : Nat) (src : List Byte) :
    Option (List Byte) :=
  match E.decompress src with
  | some d => if d.length ≤ dstCapacity then some d else none
  | none => none

/-! ## `compress_json.cpp` -/

/-- `#define CHUNK_SIZE 10 * 1024 * 1024` -/
def CHUNK_SIZE : Nat := 10 * 1024 * 1024
/-- `#define LEVEL1_THRESHOLD 1024` -/
def LEVEL1_THRESHOLD : Nat := 1024
/-- `#define LEVEL2_THRESHOLD 2048` -/
def LEVEL2_THRESHOLD : Nat := 2048
/-- `#define LEVEL3_THRESHOLD 10240` -/
def LEVEL3_THRESHOLD : Nat := 10240
/-- `#define LEVEL5_THRESHOLD 10240` (never used by the code) -/
def LEVEL5_THRESHOLD : Nat := 10240

/-- Lines 100-107 of `compress_file`: the level chosen for a line that is compressed. -/
def compression_level (line_len : Nat) : Int :=
  if line_len ≥ LEVEL1_THRESHOLD ∧ line_len < LEVEL2_THRESHOLD then 2
  else if line_len ≥ LEVEL2_THRESHOLD ∧ line_len < LEVEL3_THRESHOLD then 3
  else if line_len ≥ LEVEL3_THRESHOLD then 5
  else 1

/-- The decision of the per-record loop (lines 91-107): `none` is the raw branch of line 91,
`some l` a compress call at level `l`. -/
def decide_level (line_len : Nat) : Option Int :=
  if line_len ≤ LEVEL1_THRESHOLD then none else some (compression_level line_len)

/-- The lines `std::getline` delivers, one call after the other, from a stream whose
remaining content is the second argument; `cur` holds the characters extracted so far by the
current call.  A call that reaches the end of the input without having extracted a character
fails and ends the loop. -/
def getlines_from (cur : List Byte) : List Byte → List (List Byte)
  | [] => if cur = [] then [] else [cur]
  | b :: bs => if b = NL then cur :: getlines_from [] bs else getlines_from (cur ++ [b]) bs

/-- All lines of a file, as read by `while (std::getline(input_fp, line))`. -/
def getlines (file : List Byte) : List (List Byte) := getlines_from [] file

/-- The variables `compress_file` updates in its loop. -/
structure EncState where
  output_fp : List Byte
  compression_times : List ℚ
  compression_ratios : List ℚ
  total_input_size : Nat
  total_compressed_size : Nat
  line_count : Nat

/-- State before the first line is read (lines 77-81). -/
def EncState.init : EncState :=
  { output_fp := [], compression_times := [], compression_ratios := [],
    total_input_size := 0, total_compressed_size := 0, line_count := 0 }

/-- Size of `compress_buffer` (lines 74-75). -/
def max_compress_size (E : Env) : Nat := E.compressBound CHUNK_SIZE % SIZE_T

/-- One iteration of the loop of `compress_file` (lines 88-133) on `line`. -/
def compress_step (E : Env) (st : EncState) (line : List Byte) : EncState :=
  let st := { st with line_count := (st.line_count + 1) % SIZE_T }
  let line_len := line.length
  if line_len ≤ LEVEL1_THRESHOLD then
    { st with output_fp := st.output_fp ++ [(0 : Byte)] ++ size_t_bytes line_len ++ line }
  else
    match ZSTD_compress_usingCDict E (compression_level line_len) (max_compress_size E) line with
    | none => st
    | some compressed =>
      let compressed_size := compressed.length
      { st with
        compression_times := st.compression_times ++ [E.elapsed st.line_count]
        compression_ratios := st.compression_ratios ++ [(compressed_size : ℚ) / (line_len : ℚ)]
        total_input_size := (st.total_input_size + line_len) % SIZE_T
        total_compressed_size := (st.total_compressed_size + compressed_size) % SIZE_T
        output_fp := st.output_fp ++ [(1 : Byte)] ++ size_t_bytes compressed_size ++ compressed }

/-- The loop of `compress_file` (lines 87-134) over the lines `std::getline` delivers. -/
def compress_loop (E : Env) (st : EncState) (lines : List (List Byte)) : EncState :=
  lines.foldl (compress_step E) st

/-- `calculate_total`: `std::accumulate(data.begin(), data.end(), 0.0)`. -/
def calculate_total (data : List ℚ) : ℚ := data.foldl (· + ·) 0

/-- The conversion `static_cast<size_t>(x)` of a `double`: truncation toward zero. -/
def double_to_size_t (x : ℚ) : Nat := (Int.tdiv x.num (x.den : Int)).toNat % SIZE_T

/-- `percentile` of `compress_json.cpp` (lines 21-28).  `n - 1` is unsigned and wraps for
`n = 0`; a read outside `data` is `none`. -/
def percentile (data : List ℚ) (perc : ℚ) : Option ℚ :=
  let n := data.length
  let rank : ℚ := perc * (((n + SIZE_T - 1) % SIZE_T : Nat) : ℚ)
  let lower_index := double_to_size_t rank
  let upper_index := min ((lower_index + 1) % SIZE_T) ((n + SIZE_T - 1) % SIZE_T)
  let weight : ℚ := rank - (lower_index : ℚ)
  match data[lower_index]?, data[upper_index]? with
  | some lower, some upper => some (lower * (1 - weight) + upper * weight)
  | _, _ => none

/-- A quotient of two `double`s that are counts or totals: `none` when the divisor is zero
(the source then prints `nan` or `inf`, and no number is reported). -/
def ratio (a b : ℚ) : Option ℚ := if b = 0 then none else some (a / b)

/-- The statistics printed for one sorted sample vector: `front()`, four percentiles,
`back()`. -/
structure Summary where
  min : Option ℚ
  p25 : Option ℚ
  p50 : Option ℚ
  p75 : Option ℚ
  p95 : Option ℚ
  max : Option ℚ

/-- The report `compress_file` prints (lines 147-169). -/
structure EncReport where
  line_count : Nat
  total_time : ℚ
  average_time : Option ℚ
  times : Summary
  average_compression_ratio : Option ℚ
  ratios : Summary

/-- Lines 157-162 (and 164-169): the six values read from a sorted vector. -/
def summary (sorted : List ℚ) : Summary :=
  { min := sorted.head?
    p25 := percentile sorted (25 / 100)
    p50 := percentile sorted (5 / 10)
    p75 := percentile sorted (75 / 100)
    p95 := percentile sorted (95 / 100)
    max := sorted.getLast? }

/-- Whether every element read for a summary exists. -/
def Summary.defined (s : Summary) : Bool :=
  s.min.isSome && s.p25.isSome && s.p50.isSome && s.p75.isSome && s.p95.isSome && s.max.isSome

/-- Lines 147-169 of `compress_file`: the report computed from the final loop state. -/
def compress_report (st : EncState) : EncReport :=
  let total_time := calculate_total st.compression_times
  { line_count := st.line_count
    total_time := total_time
    average_time := ratio total_time st.line_count
    times := summary (st.compression_times.insertionSort (· ≤ ·))
    average_compression_ratio := ratio st.total_compressed_size st.total_input_size
    ratios := summary (st.compression_ratios.insertionSort (· ≤ ·)) }

/-- What a run finds on disk: the input file and the dictionary (`none`: cannot be opened),
and whether the output file can be opened. -/
structure Files where
  input : Option (List Byte)
  output_opens : Bool
  dict : Option (List Byte)

/-- Outcome of a run: the value returned (`none`: the run read outside a vector before it
could return) and the content of the output file. -/
structure Run where
  status : Option Int
  output : List Byte

/-- `compress_file` (lines 40-173). -/
def compress_file (E : Env) (fs : Files) : Run :=
  match fs.input, fs.output_opens, fs.dict with
  | some input, true, some dict =>
    if E.createCDict dict then
      let st := compress_loop E EncState.init (getlines input)
      let report := compress_report st
      { status := if report.times.defined && report.ratios.defined then some 0 else none
        output := st.output_fp }
    else { status := some 1, output := [] }
  | _, _, _ => { status := some 1, output := [] }

/-! ## `decompress_json.cpp` -/

/-- `#define DEFAULT_BUFFER_SIZE 4 * 1024 * 1024` -/
def DEFAULT_BUFFER_SIZE : Nat := 4 * 1024 * 1024

/-- A `std::ifstream` opened on a file: the bytes not yet extracted, and `good`, which is
false once `eofbit` or `failbit` is set. -/
structure IStream where
  rest : List Byte
  good : Bool

/-- The call `ifs.peek()`: `none` is `EOF`, returned at the end of the input and on a stream
that is not good. -/
def IStream.peek (s : IStream) : Option Byte :=
  if s.good then s.rest.head? else none

/-- The call `ifs.read(buf, n)`: the characters stored into `buf` and the stream afterwards.
A stream that is not good delivers nothing; a stream holding fewer than `n` characters
delivers those it has and sets `eofbit` and `failbit`. -/
def IStream.read (s : IStream) (n : Nat) : List Byte × IStream :=
  if s.good then
    if n ≤ s.rest.length then (s.rest.take n, { rest := s.rest.drop n, good := true })
    else (s.rest, { rest := [], good := false })
  else ([], s)

/-- Content of a buffer that held `buf` after `got` was stored at its start. -/
def fill (buf got : List Byte) : List Byte := got ++ buf.drop got.length

/-- The variables `decompress_file` updates in its loop. -/
structure DecState where
  ofs : List Byte
  decompression_times : List ℚ
  line_count : Nat

/-- State before the first frame is read (lines 74-75). -/
def DecState.init : DecState := { ofs := [], decompression_times := [], line_count := 0 }

/-- Lines 92-93 (or 110-111) and 119-122: write `data` and a line feed, push the duration,
count the line. -/
def DecState.emit (E : Env) (st : DecState) (data : List Byte) : DecState :=
  { ofs := st.ofs ++ data ++ [NL]
    decompression_times := st.decompression_times ++ [E.elapsed st.line_count]
    line_count := (st.line_count + 1) % SIZE_T }

/-- The largest size of a `std::vector<char>`, its `max_size()`: `PTRDIFF_MAX`. -/
def VECTOR_MAX : Nat := 2 ^ 63 - 1

/-- Whether the constructor `std::vector<char>(n)` returns, at a point where the input stream
still holds `avail` bytes.  It throws `std::length_error` when `n` exceeds `max_size()` and
`std::bad_alloc` when the system cannot provide the memory (`E.alloc n`).  A vector for bytes
that are all present in the stream is taken to be constructed: the stream is a file, which
holds fewer than `2 ^ 63` bytes, and the system is taken to have memory for a payload its
input holds. -/
def vector_alloc (E : Env) (avail n : Nat) : Bool :=
  decide (n ≤ avail) || (decide (n ≤ VECTOR_MAX) && E.alloc n)

/-- How one iteration of the loop of `decompress_file` ends: with `return status`; at the
bottom of the body with a new stream and state; with an exception thrown by a vector
constructor, which nothing catches (`std::terminate`); or with a read of a length variable
that was only partly stored, a value the language leaves indeterminate. -/
inductive Step where
  | ret (status : Int) (st : DecState)
  | next (ifs : IStream) (st : DecState)
  | abort (st : DecState)
  | undefined (st : DecState)

/-- In the result of the decoder loop, marks a run ended by an uncaught exception: no value
is returned. -/
def ABORTED : Int := -2

/-- In the result of the decoder loop, marks a run that read an indeterminate length: the
language does not define what follows. -/
def UNDEFINED : Int := -3

/-- The body of the loop of `decompress_file` (lines 79-122), entered after `ifs.peek()`
returned the character `flag`, which `ifs.read(&flag, 1)` then extracts.  The length is read
into an uninitialised `size_t`: when the stream holds fewer than 8 bytes for it, part of the
variable stays indeterminate and its use is undefined.  The payload is read into a vector of
that many zero bytes, if the vector can be constructed; all of its bytes are then written or
passed to the backend, also those a short read did not store. -/
def decompress_iter (E : Env) (ifs : IStream) (st : DecState) (flag : Byte) : Step :=
  let ifs := (ifs.read 1).2
  if flag = 0 then
    let r := ifs.read 8
    if r.1.length < 8 then Step.undefined st
    else
      let line_len := le_value r.1
      if vector_alloc E r.2.rest.length line_len then
        let p := r.2.read line_len
        let uncompressed_data := fill (List.replicate line_len 0) p.1
        Step.next p.2 (st.emit E uncompressed_data)
      else Step.abort st
  else if flag = 1 then
    let r := ifs.read 8
    if r.1.length < 8 then Step.undefined st
    else
      let compressed_size := le_value r.1
      if vector_alloc E r.2.rest.length compressed_size then
        let p := r.2.read compressed_size
        let compressed_data := fill (List.replicate compressed_size 0) p.1
        match ZSTD_decompress_usingDDict E DEFAULT_BUFFER_SIZE compressed_data with
        | none => Step.ret (-1) st
        | some decompressed => Step.next p.2 (st.emit E decompressed)
      else Step.abort st
  else Step.ret (-1) st

/-- The loop of `decompress_file` run for at most `fuel` iterations.  The result is the status
returned from inside the loop, or `0` when the loop is left because `ifs.peek()` is `EOF`, or
one of the marks `ABORTED` and `UNDEFINED` when the run does not get that far. -/
def decompress_loop_fuel (E : Env) : Nat → IStream → DecState → Int × DecState
  | 0, _, st => (0, st)
  | fuel + 1, ifs, st =>
    match ifs.peek with
    | none => (0, st)
    | some flag =>
      match decompress_iter E ifs st flag with
      | Step.ret status st1 => (status, st1)
      | Step.next ifs1 st1 => decompress_loop_fuel E fuel ifs1 st1
      | Step.abort st1 => (ABORTED, st1)
      | Step.undefined st1 => (UNDEFINED, st1)

/-- The loop of `decompress_file` (lines 78-123).  Every iteration extracts at least the flag
character, so the number of characters left bounds the number of iterations
(`decompress_loop_unfold` shows that the bound is never felt). -/
def decompress_loop (E : Env) (ifs : IStream) (st : DecState) : Int × DecState :=
  decompress_loop_fuel E ifs.rest.length ifs st

namespace decompress_json

/-- `percentile` of `decompress_json.cpp` (lines 14-21). -/
def percentile (data : List ℚ) (perc : ℚ) : Option ℚ :=
  let n := data.length
  let rank : ℚ := perc * (((n + SIZE_T - 1) % SIZE_T : Nat) : ℚ)
  let lower_index := double_to_size_t rank
  let upper_index := min ((lower_index + 1) % SIZE_T) ((n + SIZE_T - 1) % SIZE_T)
  let weight : ℚ := rank - (lower_index : ℚ)
  match data[lower_index]?, data[upper_index]? with
  | some lower, some upper => some (lower * (1 - weight) + upper * weight)
  | _, _ => none

end decompress_json

/-- The report `decompress_file` prints (lines 135-148). -/
structure DecReport where
  line_count : Nat
  total_time : ℚ
  average_time : Option ℚ
  times : Summary

/-- Lines 135-148 of `decompress_file`: the report computed from the final loop state. -/
def decompress_report (st : DecState) : DecReport :=
  let total_time := st.decompression_times.foldl (· + ·) 0
  let sorted := st.decompression_times.insertionSort (· ≤ ·)
  { line_count := st.line_count
    total_time := total_time
    average_time := ratio total_time st.line_count
    times :=
      { min := sorted.head?
        p25 := decompress_json.percentile sorted (25 / 100)
        p50 := decompress_json.percentile sorted (5 / 10)
        p75 := decompress_json.percentile sorted (75 / 100)
        p95 := decompress_json.percentile sorted (95 / 100)
        max := sorted.getLast? } }

/-- `decompress_file` (lines 34-152).  A run that returns has its output stream closed, by
`ofs.close()` or by the destructor, and the file holds all that was written.  A run that is
ended by an uncaught exception returns nothing, and the file holds what had been flushed.
A run that reads an indeterminate length returns nothing either; what its output is then
given as carries no information, the language leaving the rest of such a run undefined. -/
def decompress_file (E : Env) (fs : Files) : Run :=
  match fs.input, fs.output_opens, fs.dict with
  | some input, true, some dict =>
    if E.createDDict dict then
      let r := decompress_loop E ⟨input, true⟩ DecState.init
      if r.1 = 0 then
        { status := if (decompress_report r.2).times.defined then some 0 else none
          output := r.2.ofs }
      else if r.1 = ABORTED ∨ r.1 = UNDEFINED then
        { status := none, output := E.flushed r.2.ofs }
      else { status := some r.1, output := r.2.ofs }
    else { status := some (-1), output := [] }
  | _, _, _ => { status := some (-1), output := [] }

/-! ## The frame view of a stream -/

/-- A frame as the data model describes it: flag, length field, payload. -/
structure Frame where
  flag : Byte
  length : Nat
  payload : List Byte

/-- The bytes of a frame on the wire. -/
def Frame.bytes (f : Frame) : List Byte := [f.flag] ++ size_t_bytes f.length ++ f.payload

/-- A frame is complete when its length field is a `size_t` that counts its payload. -/
def Frame.complete (f : Frame) : Prop := f.length = f.payload.length ∧ f.length < SIZE_T

/-- The bytes of a sequence of frames, one after the other. -/
def stream_of (frames : List Frame) : List Byte := (frames.map Frame.bytes).flatten

/-- The frame the encoder loop writes for `line`, if it writes one (raw branch, lines 93-96;
compressed branch, lines 130-133). -/
def encode_frame (E : Env) (line : List Byte) : Option Frame :=
  if line.length ≤ LEVEL1_THRESHOLD then some ⟨0, line.length, line⟩
  else
    match ZSTD_compress_usingCDict E (compression_level line.length) (max_compress_size E) line with
    | none => none
    | some compressed => some ⟨1, compressed.length, compressed⟩

/-- The record a frame stands for: the payload of a raw frame, the decompressed payload of a
compressed frame; `none` for an unknown flag or a decompression error. -/
def decode_payload (E : Env) (f : Frame) : Option (List Byte) :=
  if f.flag = 0 then some f.payload
  else if f.flag = 1 then ZSTD_decompress_usingDDict E DEFAULT_BUFFER_SIZE f.payload
  else none

/-- Decoding a sequence of frames one by one: status `-1` and the state reached at the first
frame that has no record, status `0` and the final state otherwise. -/
def run_frames (E : Env) (st : DecState) : List Frame → Int × DecState
  | [] => (0, st)
  | f :: fs =>
    match decode_payload E f with
    | none => (-1, st)
    | some data => run_frames E (st.emit E data) fs

/-- Whether the encoder loop drops `line`: it is longer than 1024 bytes and the compress call
reports an error (lines 114-117). -/
def compression_fails (E : Env) (line : List Byte) : Bool :=
  decide (LEVEL1_THRESHOLD < line.length) &&
    (ZSTD_compress_usingCDict E (compression_level line.length) (max_compress_size E) line).isNone

/-- Whether the encoder loop writes a COMPRESSED frame for `line`. -/
def is_compressed (E : Env) (line : List Byte) : Bool :=
  decide (LEVEL1_THRESHOLD < line.length) &&
    (ZSTD_compress_usingCDict E (compression_level line.length) (max_compress_size E) line).isSome

/-- The interpolation formula in the words of the specification: `rank = p*(n-1)`,
`lo = floor(rank)`, `hi = min(lo+1, n-1)`, `weight = rank - lo`, and the result is
`data[lo]*(1-weight) + data[hi]*weight`. -/
def percentile_spec (data : List ℚ) (p : ℚ) : ℚ :=
  let n := data.length
  let rank : ℚ := p * ((n : ℚ) - 1)
  let lo := ⌊rank⌋₊
  let hi := min (lo + 1) (n - 1)
  let weight : ℚ := rank - (lo : ℚ)
  data.getD lo 0 * (1 - weight) + data.getD hi 0 * weight

/-- The decoder state after the records `recs` have been written one by one. -/
def emit_all (E : Env) (st : DecState) (recs : List (List Byte)) : DecState :=
  recs.foldl (fun s r => s.emit E r) st

/-- A backend that stores data unchanged, with a clock that measures one millisecond for
every call, memory for every vector up to `max_size()`, and an output stream that passes
nothing to the file before it is closed. -/
def idEnv : Env :=
  { compressBound := fun n => n
    compress := fun _ src => some src
    decompress := fun src => some src
    createCDict := fun _ => true
    createDDict := fun _ => true
    elapsed := fun _ => 1
    alloc := fun _ => true
    flushed := fun _ => [] }

/-- A backend whose compression and decompression calls always report an error. -/
def failEnv : Env :=
  { idEnv with compress := fun _ _ => none, decompress := fun _ => none }

/-! ## The indices `percentile` reads -/

/-- The value of `n - 1` in `percentile`, for a vector of size `n` (line 23: unsigned). -/
def size_pred (n : Nat) : Nat := (n + SIZE_T - 1) % SIZE_T

/-- The variable `lower_index` of `percentile` (line 24) for a vector of size `n`. -/
def lower_index (n : Nat) (perc : ℚ) : Nat :=
  double_to_size_t (perc * ((size_pred n : Nat) : ℚ))

/-- The variable `upper_index` of `percentile` (line 25) for a vector of size `n`. -/
def upper_index (n : Nat) (perc : ℚ) : Nat :=
  min ((lower_index n perc + 1) % SIZE_T) (size_pred n)

/-! ## `compare_files.cpp` -/

/-- Lines 37-38: `if (!line.empty() && line.back() == '\r') line.pop_back();` -/
def strip_cr (line : List Byte) : List Byte :=
  if line.getLast? = some 13 then line.dropLast else line

/-- A loop whose body runs `n` times and each time reports a difference: increments
`differences_found` and returns `false` from `compare_files` when it has become 2
(lines 54-62, 69-75, 80-86).  `none` stands for that return. -/
def count_chars : Nat → Nat → Option Nat
  | 0, d => some d
  | n + 1, d => if d + 1 = 2 then none else count_chars n (d + 1)

/-- Lines 41-49: the positions below the common length at which the two lines differ are
reported one by one. -/
def mismatch_loop : List Byte → List Byte → Nat → Option Nat
  | a :: l1, b :: l2, d =>
    if a ≠ b then
      if d + 1 = 2 then none else mismatch_loop l1 l2 (d + 1)
    else mismatch_loop l1 l2 d
  | _, _, d => some d

/-- The first loop of `compare_files` (lines 34-64) on the lines the two streams still hold.
The condition `getline(ifs1, line1) && getline(ifs2, line2)` reads a line of the first file
before it asks the second file for one.  The result is `differences_found` and the lines left
in each stream when the loop ends; `none` is a `return false` from inside the loop. -/
def compare_loop :
    List (List Byte) → List (List Byte) → Nat → Option (Nat × List (List Byte) × List (List Byte))
  | [], lines2, d => some (d, [], lines2)
  | _ :: rest1, [], d => some (d, rest1, [])
  | l1 :: rest1, l2 :: rest2, d =>
    let line1 := strip_cr l1
    let line2 := strip_cr l2
    match mismatch_loop line1 line2 d with
    | none => none
    | some d1 =>
      if line1.length ≠ line2.length ∧ d1 < 2 then
        match count_chars (max line1.length line2.length - min line1.length line2.length) d1 with
        | none => none
        | some d2 => compare_loop rest1 rest2 d2
      else compare_loop rest1 rest2 d1

/-- The loops over the extra lines of one file (lines 67-76 and 78-87): every character of
every line left is reported as a difference. -/
def extra_loop : List (List Byte) → Nat → Option Nat
  | [], d => some d
  | line :: rest, d =>
    if d < 2 then
      match count_chars line.length d with
      | none => none
      | some d1 => extra_loop rest d1
    else some d

/-- `compare_files` (lines 21-90) on the content of the two files (`none`: cannot be
opened). -/
def compare_files (file1 file2 : Option (List Byte)) : Bool :=
  match file1, file2 with
  | some f1, some f2 =>
    match compare_loop (getlines f1) (getlines f2) 0 with
    | none => false
    | some (d, rest1, rest2) =>
      match extra_loop rest1 d with
      | none => false
      | some d1 =>
        match extra_loop rest2 d1 with
        | none => false
        | some d2 => d2 == 0
  | _, _ => false

/-! ## Basic facts: `size_t` representation, streams, the decoder loop -/

theorem le_bytes_length (k n : Nat) : (le_bytes k n).length = k := by
  induction k generalizing n with
  | zero => rfl
  | succ k ih => simp [le_bytes, ih]

theorem le_value_le_bytes (k n : Nat) : le_value (le_bytes k n) = n % 256 ^ k := by
  induction k generalizing n with
  | zero => simp [le_bytes, le_value, Nat.mod_one]
  | succ k ih =>
    simp only [le_bytes, le_value, ih, Byte.ofNat]
    rw [pow_succ, mul_comm (256 ^ k) 256, Nat.mod_mul]

theorem size_t_bytes_length (n : Nat) : (size_t_bytes n).length = 8 :=
  le_bytes_length 8 _

theorem le_value_size_t_bytes (n : Nat) : le_value (size_t_bytes n) = n % SIZE_T := by
  unfold size_t_bytes
  rw [le_value_le_bytes]
  have h : (256 : Nat) ^ 8 = SIZE_T := by norm_num [SIZE_T]
  rw [h, Nat.mod_mod]

theorem le_value_size_t_bytes_of_lt {n : Nat} (h : n < SIZE_T) :
    le_value (size_t_bytes n) = n := by
  rw [le_value_size_t_bytes, Nat.mod_eq_of_lt h]

theorem fill_of_length_le {buf got : List Byte} (h : buf.length ≤ got.length) :
    fill buf got = got := by
  simp [fill, List.drop_eq_nil_of_le h]

theorem read_append (a b : List Byte) :
    IStream.read ⟨a ++ b, true⟩ a.length = (a, ⟨b, true⟩) := by
  simp [IStream.read]

theorem read_rest_length_le (s : IStream) (n : Nat) :
    (s.read n).2.rest.length ≤ s.rest.length := by
  unfold IStream.read
  split
  · split <;> simp
  · simp

theorem peek_eq_some {s : IStream} {flag : Byte} (h : s.peek = some flag) :
    ∃ tl, s = ⟨flag :: tl, true⟩ := by
  obtain ⟨rest, good⟩ := s
  cases good with
  | false => simp [IStream.peek] at h
  | true =>
    cases rest with
    | nil => simp [IStream.peek] at h
    | cons b tl =>
      simp [IStream.peek] at h
      exact ⟨tl, by rw [h]⟩

theorem decompress_iter_next_lt {E : Env} {ifs ifs1 : IStream} {st st1 : DecState} {flag : Byte}
    (hp : ifs.peek = some flag) (h : decompress_iter E ifs st flag = Step.next ifs1 st1) :
    ifs1.rest.length < ifs.rest.length := by
  obtain ⟨tl, rfl⟩ := peek_eq_some hp
  have h1 : (IStream.read ⟨flag :: tl, true⟩ 1).2 = ⟨tl, true⟩ := by simp [IStream.read]
  have key : ∀ n m, ((IStream.read ⟨tl, true⟩ n).2.read m).2.rest.length ≤ tl.length :=
    fun n m => le_trans (read_rest_length_le _ _) (read_rest_length_le _ _)
  unfold decompress_iter at h
  simp only [h1] at h
  split at h
  · split at h
    · exact absurd h (by simp)
    · split at h
      · injection h with h2 _
        subst h2
        exact Nat.lt_succ_of_le (key _ _)
      · exact absurd h (by simp)
  · split at h
    · split at h
      · exact absurd h (by simp)
      · split at h
        · split at h
          · exact absurd h (by simp)
          · injection h with h2 _
            subst h2
            exact Nat.lt_succ_of_le (key _ _)
        · exact absurd h (by simp)
    · exact absurd h (by simp)

theorem decompress_loop_fuel_eq (E : Env) :
    ∀ (n m : Nat) (ifs : IStream) (st : DecState),
      ifs.rest.length ≤ n → ifs.rest.length ≤ m →
      decompress_loop_fuel E n ifs st = decompress_loop_fuel E m ifs st := by
  intro n
  induction n with
  | zero =>
    intro m ifs st hn _
    have hnil : ifs.rest = [] := List.length_eq_zero.mp (Nat.le_zero.mp hn)
    cases m with
    | zero => rfl
    | succ m => simp [decompress_loop_fuel, IStream.peek, hnil]
  | succ n ih =>
    intro m ifs st hn hm
    cases m with
    | zero =>
      have hnil : ifs.rest = [] := List.length_eq_zero.mp (Nat.le_zero.mp hm)
      simp [decompress_loop_fuel, IStream.peek, hnil]
    | succ m =>
      simp only [decompress_loop_fuel]
      cases hp : ifs.peek with
      | none => rfl
      | some flag =>
        simp only []
        cases hi : decompress_iter E ifs st flag with
        | ret status st1 => rfl
        | next ifs1 st1 =>
          have hlt := decompress_iter_next_lt hp hi
          exact ih m ifs1 st1 (by omega) (by omega)
        | abort st1 => rfl
        | undefined st1 => rfl

/-- The loop equation of `decompress_file`: test `ifs.peek()`, run the body, start over. -/
theorem decompress_loop_unfold (E : Env) (ifs : IStream) (st : DecState) :
    decompress_loop E ifs st =
      match ifs.peek with
      | none => (0, st)
      | some flag =>
        match decompress_iter E ifs st flag with
        | Step.ret status st1 => (status, st1)
        | Step.next ifs1 st1 => decompress_loop E ifs1 st1
        | Step.abort st1 => (ABORTED, st1)
        | Step.undefined st1 => (UNDEFINED, st1) := by
  unfold decompress_loop
  cases hp : ifs.peek with
  | none =>
    cases hl : ifs.rest.length with
    | zero => rfl
    | succ k => simp [decompress_loop_fuel, hp]
  | some flag =>
    obtain ⟨tl, rfl⟩ := peek_eq_some hp
    simp only [List.length_cons, decompress_loop_fuel, hp]
    cases hi : decompress_iter E ⟨flag :: tl, true⟩ st flag with
    | ret status st1 => rfl
    | next ifs1 st1 =>
      have hlt := decompress_iter_next_lt hp hi
      simp only [List.length_cons] at hlt
      exact decompress_loop_fuel_eq E _ _ ifs1 st1 (by omega) (le_refl _)
    | abort st1 => rfl
    | undefined st1 => rfl

/-! ## The encoder loop -/

theorem SIZE_T_eq : SIZE_T = 18446744073709551616 := by norm_num [SIZE_T]

theorem stream_of_nil : stream_of [] = [] := rfl

theorem stream_of_cons (f : Frame) (fs : List Frame) :
    stream_of (f :: fs) = f.bytes ++ stream_of fs := by
  simp [stream_of]

theorem stream_of_append (fs gs : List Frame) :
    stream_of (fs ++ gs) = stream_of fs ++ stream_of gs := by
  simp [stream_of]

theorem max_compress_size_lt (E : Env) : max_compress_size E < SIZE_T :=
  Nat.mod_lt _ (by norm_num [SIZE_T])

theorem ZSTD_compress_length_le {E : Env} {level : Int} {cap : Nat} {src c : List Byte}
    (h : ZSTD_compress_usingCDict E level cap src = some c) : c.length ≤ cap := by
  unfold ZSTD_compress_usingCDict at h
  split at h
  · split at h
    · injection h with h1
      subst h1
      assumption
    · exact absurd h (by simp)
  · exact absurd h (by simp)

theorem encode_frame_complete {E : Env} {line : List Byte} {f : Frame}
    (h : encode_frame E line = some f) : f.complete := by
  unfold encode_frame at h
  split at h
  · injection h with h1
    subst h1
    refine ⟨rfl, ?_⟩
    have : LEVEL1_THRESHOLD < SIZE_T := by norm_num [LEVEL1_THRESHOLD, SIZE_T]
    simp only
    omega
  · split at h
    · exact absurd h (by simp)
    · rename_i c hc
      injection h with h1
      subst h1
      exact ⟨rfl, lt_of_le_of_lt (ZSTD_compress_length_le hc) (max_compress_size_lt E)⟩

theorem compress_step_output (E : Env) (st : EncState) (line : List Byte) :
    (compress_step E st line).output_fp =
      st.output_fp ++ stream_of (([line]).filterMap (encode_frame E)) := by
  unfold compress_step encode_frame
  by_cases h : line.length ≤ LEVEL1_THRESHOLD
  · simp [h, stream_of, Frame.bytes]
  · simp only [h, if_false]
    cases hc : ZSTD_compress_usingCDict E (compression_level line.length)
        (max_compress_size E) line with
    | none => simp [List.filterMap, hc, h, stream_of]
    | some c => simp [List.filterMap, hc, h, stream_of, Frame.bytes]

theorem compress_loop_output (E : Env) (st : EncState) (lines : List (List Byte)) :
    (compress_loop E st lines).output_fp =
      st.output_fp ++ stream_of (lines.filterMap (encode_frame E)) := by
  induction lines generalizing st with
  | nil => simp [compress_loop, stream_of]
  | cons line rest ih =>
    have hstep := compress_step_output E st line
    have h1 : compress_loop E st (line :: rest) = compress_loop E (compress_step E st line) rest :=
      rfl
    rw [h1, ih, hstep, List.append_assoc, ← stream_of_append]
    congr 2
    cases h : encode_frame E line <;> simp [List.filterMap_cons, h]

theorem compress_loop_line_count (E : Env) (st : EncState) (lines : List (List Byte)) :
    (compress_loop E st lines).line_count % SIZE_T = (st.line_count + lines.length) % SIZE_T := by
  induction lines generalizing st with
  | nil => simp [compress_loop]
  | cons line rest ih =>
    have h1 : compress_loop E st (line :: rest) = compress_loop E (compress_step E st line) rest :=
      rfl
    have h2 : (compress_step E st line).line_count = (st.line_count + 1) % SIZE_T := by
      unfold compress_step
      simp only
      split
      · rfl
      · split <;> rfl
    rw [h1, ih, h2, List.length_cons]
    simp only [SIZE_T_eq]
    omega

/-! ## C2: the policy table -/

/-- C2 (policy table).  The decision of the per-record loop is a function of the length `L`
alone: raw for `L ≤ 1024`, level 2 for `1024 < L < 2048`, level 3 for `2048 ≤ L < 10240`,
level 5 for `L ≥ 10240`.  It is never the default level 1, the six boundary lengths map to
raw, 2, 2, 3, 3, 5, and what one iteration of the loop appends to the output is determined
by that decision and the backend's answer at the decided level. -/
theorem policy_table :
    (∀ L : Nat, decide_level L =
        if L ≤ 1024 then none else if L < 2048 then some 2
        else if L < 10240 then some 3 else some 5) ∧
    (∀ L : Nat, decide_level L ≠ some 1) ∧
    (decide_level 1024 = none ∧ decide_level 1025 = some 2 ∧ decide_level 2047 = some 2 ∧
      decide_level 2048 = some 3 ∧ decide_level 10239 = some 3 ∧ decide_level 10240 = some 5) ∧
    (∀ (E : Env) (st : EncState) (line : List Byte),
      (compress_step E st line).output_fp = st.output_fp ++
        match decide_level line.length with
        | none => [(0 : Byte)] ++ size_t_bytes line.length ++ line
        | some level =>
          match ZSTD_compress_usingCDict E level (max_compress_size E) line with
          | none => []
          | some c => [(1 : Byte)] ++ size_t_bytes c.length ++ c) := by
  have table : ∀ L : Nat, decide_level L =
      if L ≤ 1024 then none else if L < 2048 then some 2
      else if L < 10240 then some 3 else some 5 := by
    intro L
    unfold decide_level compression_level LEVEL1_THRESHOLD LEVEL2_THRESHOLD LEVEL3_THRESHOLD
    by_cases h1 : L ≤ 1024
    · simp [h1]
    · by_cases h2 : L < 2048
      · have : 1024 ≤ L := by omega
        simp [h1, h2, this]
      · by_cases h3 : L < 10240
        · have : 2048 ≤ L := by omega
          simp [h1, h2, h3, this]
        · have : 10240 ≤ L := by omega
          simp [h1, h2, h3, this]
  refine ⟨table, ?_, ?_, ?_⟩
  · intro L
    rw [table]
    split
    · simp
    · split
      · simp
      · split <;> simp
  · simp [table]
  · intro E st line
    unfold compress_step decide_level
    by_cases h : line.length ≤ LEVEL1_THRESHOLD
    · simp [h]
    · simp only [h, if_false]
      cases hc : ZSTD_compress_usingCDict E (compression_level line.length)
          (max_compress_size E) line <;> simp

/-! ## C3: the frame invariant -/

/-- C3 (frame invariant).  The stream `compress_file` writes is the sequence of the frames of
its input lines.  Every frame written has flag 0 or 1 and a length field whose value is the
number of payload bytes that follow it.  The frame of a line of at most 1024 bytes has flag 0
and the line as payload; a longer line has either no frame (backend error) or a frame with
flag 1 whose payload is the backend's compressed bytes. -/
theorem frame_invariant (E : Env) (lines : List (List Byte)) :
    (compress_loop E EncState.init lines).output_fp =
        stream_of (lines.filterMap (encode_frame E)) ∧
    (∀ f ∈ lines.filterMap (encode_frame E),
        (f.flag = 0 ∨ f.flag = 1) ∧ le_value (size_t_bytes f.length) = f.payload.length) ∧
    (∀ line ∈ lines, ∀ f, encode_frame E line = some f →
        (f.flag = 0 ↔ line.length ≤ 1024) ∧ (f.flag = 1 ↔ 1024 < line.length) ∧
        (f.flag = 0 → f.payload = line) ∧
        (f.flag = 1 → ZSTD_compress_usingCDict E (compression_level line.length)
            (max_compress_size E) line = some f.payload)) ∧
    (∀ line ∈ lines, line.length ≤ 1024 → encode_frame E line = some ⟨0, line.length, line⟩) := by
  refine ⟨?_, ?_, ?_, ?_⟩
  · rw [compress_loop_output]
    rfl
  · intro f hf
    obtain ⟨line, _, hline⟩ := List.mem_filterMap.mp hf
    have hc := encode_frame_complete hline
    refine ⟨?_, ?_⟩
    · unfold encode_frame at hline
      split at hline
      · injection hline with h1
        subst h1
        exact Or.inl rfl
      · split at hline
        · exact absurd hline (by simp)
        · injection hline with h1
          subst h1
          exact Or.inr rfl
    · rw [le_value_size_t_bytes_of_lt hc.2]
      exact hc.1
  · intro line _ f hf
    unfold encode_frame at hf
    by_cases h : line.length ≤ LEVEL1_THRESHOLD
    · simp only [h, if_true] at hf
      injection hf with h1
      subst h1
      have h' : line.length ≤ 1024 := h
      refine ⟨by simp [h'], ?_, by simp, ?_⟩
      · simp only [show ((0 : Byte) = 1) = False from by decide, false_iff]
        omega
      · intro h0
        exact absurd h0 (show ¬ ((0 : Byte) = 1) by decide)
    · simp only [h, if_false] at hf
      have h' : ¬ line.length ≤ 1024 := h
      split at hf
      · exact absurd hf (by simp)
      · rename_i c hc
        injection hf with h1
        subst h1
        refine ⟨?_, ?_, ?_, fun _ => hc⟩
        · simp only [show ((1 : Byte) = 0) = False from by decide, false_iff]
          exact h'
        · simp only [true_iff]
          omega
        · intro h0
          exact absurd h0 (show ¬ ((1 : Byte) = 0) by decide)
  · intro line _ h
    have h' : line.length ≤ LEVEL1_THRESHOLD := h
    simp [encode_frame, h']

/-! ## The decoder loop on complete frames -/

theorem decompress_loop_nil (E : Env) (st : DecState) :
    decompress_loop E ⟨[], true⟩ st = (0, st) := rfl

theorem read_size_t (n : Nat) (tail : List Byte) :
    IStream.read ⟨size_t_bytes n ++ tail, true⟩ 8 = (size_t_bytes n, ⟨tail, true⟩) := by
  have h := read_append (size_t_bytes n) tail
  rwa [size_t_bytes_length] at h

theorem decompress_iter_frame (E : Env) (f : Frame) (tail : List Byte) (st : DecState)
    (hc : f.complete) :
    decompress_iter E ⟨f.bytes ++ tail, true⟩ st f.flag =
      match decode_payload E f with
      | none => Step.ret (-1) st
      | some data => Step.next ⟨tail, true⟩ (st.emit E data) := by
  obtain ⟨hlen, hlt⟩ := hc
  have h1 : (IStream.read ⟨f.bytes ++ tail, true⟩ 1).2 =
      ⟨size_t_bytes f.length ++ (f.payload ++ tail), true⟩ := by
    simp [IStream.read, Frame.bytes]
  have h2 : ¬ (size_t_bytes f.length).length < 8 := by simp [size_t_bytes_length]
  have h3 : IStream.read ⟨f.payload ++ tail, true⟩ f.length = (f.payload, ⟨tail, true⟩) := by
    rw [hlen]
    exact read_append _ _
  have h4 : fill (List.replicate f.length 0) f.payload = f.payload :=
    fill_of_length_le (by simp [hlen])
  have h5 : vector_alloc E (f.payload ++ tail).length f.length = true := by
    simp [vector_alloc, hlen]
  unfold decompress_iter decode_payload
  simp only [h1, read_size_t, h2, if_false, le_value_size_t_bytes_of_lt hlt, h3, h4, h5,
    if_true]
  by_cases hf0 : f.flag = 0
  · simp [hf0]
  · by_cases hf1 : f.flag = 1
    · simp only [hf0, hf1, if_true, if_false]
      cases ZSTD_decompress_usingDDict E DEFAULT_BUFFER_SIZE f.payload <;> rfl
    · simp [hf0, hf1]

theorem decompress_loop_frame (E : Env) (f : Frame) (tail : List Byte) (st : DecState)
    (hc : f.complete) :
    decompress_loop E ⟨f.bytes ++ tail, true⟩ st =
      match decode_payload E f with
      | none => (-1, st)
      | some data => decompress_loop E ⟨tail, true⟩ (st.emit E data) := by
  rw [decompress_loop_unfold]
  have hp : IStream.peek ⟨f.bytes ++ tail, true⟩ = some f.flag := by
    simp [IStream.peek, Frame.bytes]
  simp only [hp, decompress_iter_frame E f tail st hc]
  cases decode_payload E f <;> rfl

theorem run_frames_status (E : Env) (st : DecState) (frames : List Frame) :
    (run_frames E st frames).1 = 0 ∨ (run_frames E st frames).1 = -1 := by
  induction frames generalizing st with
  | nil => exact Or.inl rfl
  | cons f fs ih =>
    unfold run_frames
    cases decode_payload E f with
    | none => exact Or.inr rfl
    | some data => exact ih _

theorem decompress_loop_frames (E : Env) (frames : List Frame) (tail : List Byte)
    (st : DecState) (hc : ∀ f ∈ frames, f.complete) :
    decompress_loop E ⟨stream_of frames ++ tail, true⟩ st =
      if (run_frames E st frames).1 = 0 then
        decompress_loop E ⟨tail, true⟩ (run_frames E st frames).2
      else run_frames E st frames := by
  induction frames generalizing st with
  | nil => simp [stream_of, run_frames]
  | cons f fs ih =>
    have hf : f.complete := hc f (List.mem_cons_self _ _)
    have hfs : ∀ g ∈ fs, g.complete := fun g hg => hc g (List.mem_cons_of_mem _ hg)
    rw [stream_of_cons, List.append_assoc, decompress_loop_frame E f _ st hf]
    unfold run_frames
    cases decode_payload E f with
    | none => simp
    | some data => exact ih _ hfs

theorem decompress_loop_stream_of (E : Env) (frames : List Frame) (st : DecState)
    (hc : ∀ f ∈ frames, f.complete) :
    decompress_loop E ⟨stream_of frames, true⟩ st = run_frames E st frames := by
  have h := decompress_loop_frames E frames [] st hc
  rw [List.append_nil] at h
  rw [h]
  split
  · rename_i h0
    rw [decompress_loop_nil]
    exact Prod.ext h0.symm rfl
  · rfl

theorem decompress_loop_bad_flag (E : Env) (b : Byte) (rest : List Byte) (st : DecState)
    (h0 : b ≠ 0) (h1 : b ≠ 1) :
    decompress_loop E ⟨b :: rest, true⟩ st = (-1, st) := by
  rw [decompress_loop_unfold]
  simp [IStream.peek, decompress_iter, h0, h1]

/-! ## `percentile` on a non-empty vector -/

theorem double_to_size_t_of_nonneg {x : ℚ} (h : 0 ≤ x) :
    double_to_size_t x = ⌊x⌋₊ % SIZE_T := by
  unfold double_to_size_t
  rw [Int.tdiv_eq_ediv (Rat.num_nonneg.mpr h) (Int.natCast_nonneg _), ← Rat.floor_def',
    ← Int.floor_toNat]
  rfl

theorem pred_size_t {n : Nat} (h0 : 0 < n) (hN : n < SIZE_T) :
    (n + SIZE_T - 1) % SIZE_T = n - 1 := by
  rw [SIZE_T_eq] at *
  omega

/-- The value `percentile` computes on a non-empty vector for `0 ≤ perc ≤ 1`: both reads are
inside the vector, the lower index is `⌊perc * (n - 1)⌋` and the upper index is
`min (lower + 1) (n - 1)`. -/
theorem percentile_formula (data : List ℚ) (perc : ℚ) (h0 : 0 < data.length)
    (hN : data.length < SIZE_T) (hp0 : 0 ≤ perc) (hp1 : perc ≤ 1) :
    ∃ (hlo : ⌊perc * ((data.length - 1 : Nat) : ℚ)⌋₊ < data.length)
      (hhi : min (⌊perc * ((data.length - 1 : Nat) : ℚ)⌋₊ + 1) (data.length - 1) < data.length),
      percentile data perc =
        some (data[⌊perc * ((data.length - 1 : Nat) : ℚ)⌋₊] *
                (1 - (perc * ((data.length - 1 : Nat) : ℚ) -
                  (⌊perc * ((data.length - 1 : Nat) : ℚ)⌋₊ : ℚ))) +
              data[min (⌊perc * ((data.length - 1 : Nat) : ℚ)⌋₊ + 1) (data.length - 1)] *
                (perc * ((data.length - 1 : Nat) : ℚ) -
                  (⌊perc * ((data.length - 1 : Nat) : ℚ)⌋₊ : ℚ))) := by
  have hrank0 : 0 ≤ perc * ((data.length - 1 : Nat) : ℚ) :=
    mul_nonneg hp0 (Nat.cast_nonneg _)
  have hrank1 : perc * ((data.length - 1 : Nat) : ℚ) ≤ ((data.length - 1 : Nat) : ℚ) := by
    have := mul_le_mul_of_nonneg_right hp1 (Nat.cast_nonneg (data.length - 1) : (0 : ℚ) ≤ _)
    simpa using this
  have hfl : ⌊perc * ((data.length - 1 : Nat) : ℚ)⌋₊ ≤ data.length - 1 :=
    Nat.floor_le_of_le hrank1
  have hlo : ⌊perc * ((data.length - 1 : Nat) : ℚ)⌋₊ < data.length := by omega
  have hhi : min (⌊perc * ((data.length - 1 : Nat) : ℚ)⌋₊ + 1) (data.length - 1)
      < data.length := by
    have := Nat.min_le_right (⌊perc * ((data.length - 1 : Nat) : ℚ)⌋₊ + 1) (data.length - 1)
    omega
  refine ⟨hlo, hhi, ?_⟩
  have hmod1 : ⌊perc * ((data.length - 1 : Nat) : ℚ)⌋₊ % SIZE_T =
      ⌊perc * ((data.length - 1 : Nat) : ℚ)⌋₊ := Nat.mod_eq_of_lt (by omega)
  have hmod2 : (⌊perc * ((data.length - 1 : Nat) : ℚ)⌋₊ + 1) % SIZE_T =
      ⌊perc * ((data.length - 1 : Nat) : ℚ)⌋₊ + 1 := Nat.mod_eq_of_lt (by omega)
  unfold percentile
  simp only [pred_size_t h0 hN, double_to_size_t_of_nonneg hrank0, hmod1, hmod2,
    List.getElem?_eq_getElem hlo, List.getElem?_eq_getElem hhi]

theorem percentile_isSome (data : List ℚ) (perc : ℚ) (h0 : 0 < data.length)
    (hN : data.length < SIZE_T) (hp0 : 0 ≤ perc) (hp1 : perc ≤ 1) :
    (percentile data perc).isSome = true := by
  obtain ⟨_, _, h⟩ := percentile_formula data perc h0 hN hp0 hp1
  rw [h]
  rfl

theorem percentile_nil (perc : ℚ) : percentile [] perc = none := by
  simp [percentile]

theorem decompress_json_percentile_eq :
    decompress_json.percentile = percentile := rfl

theorem summary_defined (data : List ℚ) (h0 : 0 < data.length) (hN : data.length < SIZE_T) :
    (summary (data.insertionSort (· ≤ ·))).defined = true := by
  have hl := List.length_insertionSort (· ≤ ·) data
  have h0' : 0 < (data.insertionSort (· ≤ ·)).length := by omega
  have hN' : (data.insertionSort (· ≤ ·)).length < SIZE_T := by omega
  have hne : data.insertionSort (· ≤ ·) ≠ [] := List.ne_nil_of_length_pos h0'
  simp only [Summary.defined, summary, Bool.and_eq_true]
  refine ⟨⟨⟨⟨⟨?_, ?_⟩, ?_⟩, ?_⟩, ?_⟩, ?_⟩
  · exact List.head?_isSome.mpr hne
  · exact percentile_isSome _ _ h0' hN' (by norm_num) (by norm_num)
  · exact percentile_isSome _ _ h0' hN' (by norm_num) (by norm_num)
  · exact percentile_isSome _ _ h0' hN' (by norm_num) (by norm_num)
  · exact percentile_isSome _ _ h0' hN' (by norm_num) (by norm_num)
  · exact List.getLast?_isSome.mpr hne

theorem summary_nil_undefined : (summary ([].insertionSort (· ≤ ·))).defined = false := by
  simp [summary, Summary.defined]

/-! ## Decoding frames that all have a record -/

theorem emit_all_ofs (E : Env) (st : DecState) (recs : List (List Byte)) :
    (emit_all E st recs).ofs = st.ofs ++ (recs.map (· ++ [NL])).flatten := by
  induction recs generalizing st with
  | nil => simp [emit_all]
  | cons r rest ih =>
    have h : emit_all E st (r :: rest) = emit_all E (st.emit E r) rest := rfl
    rw [h, ih]
    simp [DecState.emit]

theorem emit_all_times_length (E : Env) (st : DecState) (recs : List (List Byte)) :
    (emit_all E st recs).decompression_times.length =
      st.decompression_times.length + recs.length := by
  induction recs generalizing st with
  | nil => simp [emit_all]
  | cons r rest ih =>
    have h : emit_all E st (r :: rest) = emit_all E (st.emit E r) rest := rfl
    rw [h, ih]
    simp [DecState.emit]
    omega

theorem emit_all_line_count (E : Env) (st : DecState) (recs : List (List Byte)) :
    (emit_all E st recs).line_count % SIZE_T = (st.line_count + recs.length) % SIZE_T := by
  induction recs generalizing st with
  | nil => simp [emit_all]
  | cons r rest ih =>
    have h : emit_all E st (r :: rest) = emit_all E (st.emit E r) rest := rfl
    rw [h, ih]
    simp only [DecState.emit, List.length_cons, SIZE_T_eq]
    omega

theorem run_frames_of_decoded (E : Env) (frames : List Frame) (recs : List (List Byte))
    (st : DecState) (h : frames.map (decode_payload E) = recs.map some) :
    run_frames E st frames = (0, emit_all E st recs) := by
  induction frames generalizing st recs with
  | nil =>
    cases recs with
    | nil => rfl
    | cons r rest => simp at h
  | cons f fs ih =>
    cases recs with
    | nil => simp at h
    | cons r rest =>
      simp only [List.map_cons, List.cons.injEq] at h
      unfold run_frames
      rw [h.1]
      exact ih rest (st.emit E r) h.2

theorem run_frames_ok_decoded (E : Env) (frames : List Frame) (st : DecState)
    (h : (run_frames E st frames).1 = 0) :
    ∃ recs : List (List Byte), frames.map (decode_payload E) = recs.map some := by
  induction frames generalizing st with
  | nil => exact ⟨[], rfl⟩
  | cons f fs ih =>
    unfold run_frames at h
    cases hd : decode_payload E f with
    | none =>
      rw [hd] at h
      simp at h
    | some data =>
      rw [hd] at h
      obtain ⟨recs, hrecs⟩ := ih _ h
      exact ⟨data :: recs, by simp [hd, hrecs]⟩

theorem decompress_file_of_loop_fail (E : Env) (input dict : List Byte) (st : DecState)
    (hd : E.createDDict dict = true)
    (h : decompress_loop E ⟨input, true⟩ DecState.init = (-1, st)) :
    decompress_file E ⟨some input, true, some dict⟩ = { status := some (-1), output := st.ofs } := by
  simp [decompress_file, hd, h, ABORTED, UNDEFINED]

theorem decompress_file_of_loop_ok (E : Env) (input dict : List Byte) (st : DecState)
    (hd : E.createDDict dict = true)
    (h : decompress_loop E ⟨input, true⟩ DecState.init = (0, st))
    (h0 : 0 < st.decompression_times.length) (hN : st.decompression_times.length < SIZE_T) :
    decompress_file E ⟨some input, true, some dict⟩ = { status := some 0, output := st.ofs } := by
  have hs : (decompress_report st).times.defined = true := summary_defined _ h0 hN
  simp [decompress_file, hd, h, hs]

/-! ## Lines of a file -/

theorem getlines_from_line (cur line rest : List Byte) (h : NL ∉ line) :
    getlines_from cur (line ++ NL :: rest) = (cur ++ line) :: getlines_from [] rest := by
  induction line generalizing cur with
  | nil => simp [getlines_from]
  | cons b bs ih =>
    have hb : b ≠ NL := fun hb => h (by simp [hb])
    have hbs : NL ∉ bs := fun hbs => h (List.mem_cons_of_mem _ hbs)
    rw [List.cons_append, getlines_from, if_neg hb, ih _ hbs]
    simp

theorem getlines_terminated (records : List (List Byte)) (h : ∀ r ∈ records, NL ∉ r) :
    getlines ((records.map (· ++ [NL])).flatten) = records := by
  unfold getlines
  induction records with
  | nil => simp [getlines_from]
  | cons r rest ih =>
    have hr : NL ∉ r := h r (List.mem_cons_self _ _)
    have hrest : ∀ x ∈ rest, NL ∉ x := fun x hx => h x (List.mem_cons_of_mem _ hx)
    simp only [List.map_cons, List.flatten_cons, List.append_assoc, List.singleton_append]
    rw [getlines_from_line [] r _ hr, ih hrest]
    simp

/-! ## C1: round trip -/

theorem encode_decode_record (E : Env) (r : List Byte) (hr : r.length < DEFAULT_BUFFER_SIZE)
    (hback : ∀ (level : Int) (src : List Byte), src.length < DEFAULT_BUFFER_SIZE →
      ∃ c, ZSTD_compress_usingCDict E level (max_compress_size E) src = some c ∧
        E.decompress c = some src) :
    ∃ f, encode_frame E r = some f ∧ decode_payload E f = some r := by
  unfold encode_frame
  by_cases h : r.length ≤ LEVEL1_THRESHOLD
  · exact ⟨⟨0, r.length, r⟩, by simp [h], by simp [decode_payload]⟩
  · obtain ⟨c, hc, hd⟩ := hback (compression_level r.length) r hr
    refine ⟨⟨1, c.length, c⟩, by simp [h, hc], ?_⟩
    have h10 : ¬ ((1 : Byte) = 0) := by decide
    simp [decode_payload, h10, ZSTD_decompress_usingDDict, hd, le_of_lt hr]

theorem encode_decode_records (E : Env) (records : List (List Byte))
    (hrec : ∀ r ∈ records, r.length < DEFAULT_BUFFER_SIZE)
    (hback : ∀ (level : Int) (src : List Byte), src.length < DEFAULT_BUFFER_SIZE →
      ∃ c, ZSTD_compress_usingCDict E level (max_compress_size E) src = some c ∧
        E.decompress c = some src) :
    (records.filterMap (encode_frame E)).map (decode_payload E) = records.map some := by
  induction records with
  | nil => rfl
  | cons r rest ih =>
    obtain ⟨f, hf, hd⟩ := encode_decode_record E r (hrec r (List.mem_cons_self _ _)) hback
    have ih' := ih (fun x hx => hrec x (List.mem_cons_of_mem _ hx))
    simp [List.filterMap_cons, hf, hd, ih']

/-- C1 (round trip).  Let the backend be such that every record shorter than the decoder
buffer is compressed without error, at every level, into bytes that decompress to the record.
Then for every list of records without a newline byte, each shorter than `4*1024*1024` bytes,
the decoder loop run on the stream the encoder loop writes for these records (read as lines of
the input file) ends normally, and its output is each record followed by one `0x0A` byte, in
the original order: the input file itself. -/
theorem round_trip (E : Env) (records : List (List Byte))
    (hrec : ∀ r ∈ records, NL ∉ r ∧ r.length < 4 * 1024 * 1024)
    (hback : ∀ (level : Int) (src : List Byte), src.length < DEFAULT_BUFFER_SIZE →
      ∃ c, ZSTD_compress_usingCDict E level (max_compress_size E) src = some c ∧
        E.decompress c = some src) :
    (decompress_loop E
        ⟨(compress_loop E EncState.init
            (getlines ((records.map (· ++ [NL])).flatten))).output_fp, true⟩
        DecState.init).1 = 0 ∧
    (decompress_loop E
        ⟨(compress_loop E EncState.init
            (getlines ((records.map (· ++ [NL])).flatten))).output_fp, true⟩
        DecState.init).2.ofs = (records.map (· ++ [NL])).flatten := by
  have hlen : ∀ r ∈ records, r.length < DEFAULT_BUFFER_SIZE := fun r hr => (hrec r hr).2
  rw [getlines_terminated records (fun r hr => (hrec r hr).1), compress_loop_output]
  have hc : ∀ f ∈ records.filterMap (encode_frame E), f.complete := by
    intro f hf
    obtain ⟨line, _, hline⟩ := List.mem_filterMap.mp hf
    exact encode_frame_complete hline
  have hinit : EncState.init.output_fp = [] := rfl
  rw [hinit, List.nil_append, decompress_loop_stream_of E _ _ hc,
    run_frames_of_decoded E _ records _ (encode_decode_records E records hlen hback)]
  exact ⟨rfl, by rw [emit_all_ofs]; rfl⟩

/-- C1, at a concrete input: the records `[1, 2, 3]` and `[]` with the storing backend. -/
theorem round_trip_witness :
    (decompress_loop idEnv
        ⟨(compress_loop idEnv EncState.init
            (getlines (([[1, 2, 3], []].map (· ++ [NL])).flatten))).output_fp, true⟩
        DecState.init).1 = 0 ∧
    (decompress_loop idEnv
        ⟨(compress_loop idEnv EncState.init
            (getlines (([[1, 2, 3], []].map (· ++ [NL])).flatten))).output_fp, true⟩
        DecState.init).2.ofs = ([[1, 2, 3], []].map (· ++ [NL])).flatten :=
  round_trip idEnv [[1, 2, 3], []]
    (by
      intro r hr
      simp only [List.mem_cons, List.mem_singleton, List.not_mem_nil, or_false] at hr
      rcases hr with rfl | rfl
      · exact ⟨by decide, by decide⟩
      · exact ⟨by decide, by decide⟩)
    (by
      intro level src hsrc
      refine ⟨src, ?_, rfl⟩
      have hcap : src.length ≤ max_compress_size idEnv := by
        have : max_compress_size idEnv = 10485760 := by
          norm_num [max_compress_size, idEnv, CHUNK_SIZE, SIZE_T]
        have h4 : DEFAULT_BUFFER_SIZE = 4194304 := by norm_num [DEFAULT_BUFFER_SIZE]
        omega
      unfold ZSTD_compress_usingCDict
      simp only [show idEnv.compress level src = some src from rfl, hcap, if_true])

/-! ## C4: a stream that ends inside a frame -/

theorem read_short (part : List Byte) (n : Nat) (h : part.length < n) :
    IStream.read ⟨part, true⟩ n = (part, ⟨[], false⟩) := by
  simp [IStream.read, Nat.not_le.mpr h]

theorem fill_zeros (part : List Byte) (n : Nat) :
    fill (List.replicate n 0) part = part ++ List.replicate (n - part.length) 0 := by
  simp [fill, List.drop_replicate]

theorem decompress_loop_failed (E : Env) (rest : List Byte) (st : DecState) :
    decompress_loop E ⟨rest, false⟩ st = (0, st) := by
  rw [decompress_loop_unfold]
  rfl

/-- The last iteration on a stream that ends inside the payload of a frame: `part` are the
payload bytes present, `n` the declared length. -/
theorem decompress_iter_truncated (E : Env) (flag : Byte) (n : Nat) (part : List Byte)
    (st : DecState) (hpart : part.length < n) (hn : n < SIZE_T) :
    decompress_iter E ⟨[flag] ++ size_t_bytes n ++ part, true⟩ st flag =
      if flag = 0 then
        if vector_alloc E part.length n then
          Step.next ⟨[], false⟩ (st.emit E (part ++ List.replicate (n - part.length) 0))
        else Step.abort st
      else if flag = 1 then
        if vector_alloc E part.length n then
          match ZSTD_decompress_usingDDict E DEFAULT_BUFFER_SIZE
              (part ++ List.replicate (n - part.length) 0) with
          | none => Step.ret (-1) st
          | some data => Step.next ⟨[], false⟩ (st.emit E data)
        else Step.abort st
      else Step.ret (-1) st := by
  have h1 : (IStream.read ⟨[flag] ++ size_t_bytes n ++ part, true⟩ 1).2 =
      ⟨size_t_bytes n ++ part, true⟩ := by
    simp [IStream.read]
  have h2 : ¬ (size_t_bytes n).length < 8 := by simp [size_t_bytes_length]
  unfold decompress_iter
  simp only [h1, read_size_t, h2, if_false, le_value_size_t_bytes_of_lt hn,
    read_short part n hpart, fill_zeros]

theorem vector_alloc_short (E : Env) (avail n : Nat) (h : avail < n) :
    vector_alloc E avail n = (decide (n ≤ VECTOR_MAX) && E.alloc n) := by
  simp [vector_alloc, Nat.not_le.mpr h]

theorem decompress_loop_truncated (E : Env) (frames : List Frame) (st1 : DecState) (flag : Byte)
    (n : Nat) (part : List Byte) (hc : ∀ f ∈ frames, f.complete)
    (hP : decompress_loop E ⟨stream_of frames, true⟩ DecState.init = (0, st1))
    (hpart : part.length < n) (hn : n < SIZE_T)
    (halloc : vector_alloc E part.length n = true) :
    decompress_loop E ⟨stream_of frames ++ ([flag] ++ size_t_bytes n ++ part), true⟩
        DecState.init =
      if flag = 0 then (0, st1.emit E (part ++ List.replicate (n - part.length) 0))
      else if flag = 1 then
        match ZSTD_decompress_usingDDict E DEFAULT_BUFFER_SIZE
            (part ++ List.replicate (n - part.length) 0) with
        | none => (-1, st1)
        | some data => (0, st1.emit E data)
      else (-1, st1) := by
  rw [decompress_loop_stream_of E frames _ hc] at hP
  rw [decompress_loop_frames E frames _ _ hc, hP]
  simp only [if_true]
  rw [decompress_loop_unfold]
  have hp : IStream.peek ⟨[flag] ++ size_t_bytes n ++ part, true⟩ = some flag := by
    simp [IStream.peek]
  simp only [hp, decompress_iter_truncated E flag n part st1 hpart hn, halloc, if_true]
  by_cases h0 : flag = 0
  · simp only [h0, if_true, decompress_loop_failed]
  · by_cases h1 : flag = 1
    · subst h1
      have h10 : ¬ ((1 : Byte) = 0) := by decide
      simp only [h10, if_true, if_false]
      cases ZSTD_decompress_usingDDict E DEFAULT_BUFFER_SIZE
        (part ++ List.replicate (n - part.length) 0) with
      | none => rfl
      | some data => simp only [decompress_loop_failed]
    · simp only [h0, h1, if_false]

theorem run_frames_times_length (E : Env) (frames : List Frame) (st st1 : DecState)
    (h : run_frames E st frames = (0, st1)) :
    st1.decompression_times.length = st.decompression_times.length + frames.length := by
  obtain ⟨recs, hrecs⟩ := run_frames_ok_decoded E frames st (by rw [h])
  rw [run_frames_of_decoded E frames recs st hrecs] at h
  injection h with _ h2
  have hl : recs.length = frames.length := by
    have := congrArg List.length hrecs
    simpa using this.symm
  rw [← h2, emit_all_times_length, hl]

/-- C4, counterexample.  The stream holds one RAW frame that declares three payload bytes and
ends after the first of them.  `decompress_file` returns 0 (success), and a record is written
for the truncated frame: the byte present, two zero bytes, a newline. -/
theorem truncated_raw_frame_accepted :
    decompress_file idEnv ⟨some [0, 3, 0, 0, 0, 0, 0, 0, 0, 97], true, some []⟩ =
      { status := some 0, output := [97, 0, 0, 10] } := by
  have h := decompress_loop_truncated idEnv [] DecState.init 0 3 [97]
    (by simp) rfl (by decide) (by norm_num [SIZE_T]) (by decide)
  exact decompress_file_of_loop_ok idEnv _ [] _ rfl h (by decide) (by norm_num [SIZE_T, DecState.emit, DecState.init])

/-- C4, as amended.  `decompress_file` does not detect a stream that ends inside the payload
of a frame.  After complete frames that decode successfully, let a RAW frame declare a length
`n` that exceeds the payload bytes `part` left in the stream, `n` being a size for which the
payload vector can be constructed (at most `max_size()`, and the system provides the memory).
The frame is decoded as the record `part` padded with zero bytes to length `n`, followed by a
newline; the loop then ends normally and `decompress_file` returns 0.  A COMPRESSED frame
truncated in the same way has its zero-padded payload handed to the backend: the run fails
exactly when the backend rejects it, and otherwise ends normally with the backend's result as
the record. -/
theorem truncated_payload_not_detected (E : Env) (frames : List Frame) (st1 : DecState)
    (n : Nat) (part dict : List Byte) (hc : ∀ f ∈ frames, f.complete)
    (hP : decompress_loop E ⟨stream_of frames, true⟩ DecState.init = (0, st1))
    (hpart : part.length < n) (hmax : n ≤ VECTOR_MAX) (hmem : E.alloc n = true)
    (hcount : frames.length + 1 < SIZE_T) (hd : E.createDDict dict = true) :
    decompress_loop E ⟨stream_of frames ++ ([0] ++ size_t_bytes n ++ part), true⟩
        DecState.init = (0, st1.emit E (part ++ List.replicate (n - part.length) 0)) ∧
    decompress_file E ⟨some (stream_of frames ++ ([0] ++ size_t_bytes n ++ part)), true,
        some dict⟩ =
      { status := some 0
        output := st1.ofs ++ (part ++ List.replicate (n - part.length) 0) ++ [NL] } ∧
    decompress_loop E ⟨stream_of frames ++ ([1] ++ size_t_bytes n ++ part), true⟩
        DecState.init =
      match ZSTD_decompress_usingDDict E DEFAULT_BUFFER_SIZE
          (part ++ List.replicate (n - part.length) 0) with
      | none => (-1, st1)
      | some data => (0, st1.emit E data) := by
  have hn : n < SIZE_T := by
    have : VECTOR_MAX < SIZE_T := by norm_num [VECTOR_MAX, SIZE_T]
    omega
  have halloc : vector_alloc E part.length n = true := by
    rw [vector_alloc_short E _ _ hpart]
    simp [hmax, hmem]
  have h0 := decompress_loop_truncated E frames st1 0 n part hc hP hpart hn halloc
  have h1 := decompress_loop_truncated E frames st1 1 n part hc hP hpart hn halloc
  simp only [if_true] at h0
  simp only [show ¬ ((1 : Byte) = 0) from by decide, if_true, if_false] at h1
  refine ⟨h0, ?_, h1⟩
  have hlen : st1.decompression_times.length = frames.length := by
    rw [decompress_loop_stream_of E frames _ hc] at hP
    have := run_frames_times_length E frames _ _ hP
    simpa [DecState.init] using this
  have := decompress_file_of_loop_ok E _ dict _ hd h0
    (by simp [DecState.emit]) (by simp [DecState.emit, hlen]; exact hcount)
  simpa [DecState.emit] using this

/-- C4 as amended, at a concrete input: one complete raw frame, then a raw frame that
declares three bytes and holds one. -/
theorem truncated_payload_not_detected_witness :
    decompress_loop idEnv
        ⟨stream_of [⟨0, 1, [7]⟩] ++ ([0] ++ size_t_bytes 3 ++ [97]), true⟩ DecState.init =
      (0, (DecState.init.emit idEnv [7]).emit idEnv ([97] ++ List.replicate (3 - [97].length) 0)) ∧
    decompress_file idEnv
        ⟨some (stream_of [⟨0, 1, [7]⟩] ++ ([0] ++ size_t_bytes 3 ++ [97])), true, some []⟩ =
      { status := some 0
        output := (DecState.init.emit idEnv [7]).ofs ++
          ([97] ++ List.replicate (3 - [97].length) 0) ++ [NL] } ∧
    decompress_loop idEnv
        ⟨stream_of [⟨0, 1, [7]⟩] ++ ([1] ++ size_t_bytes 3 ++ [97]), true⟩ DecState.init =
      match ZSTD_decompress_usingDDict idEnv DEFAULT_BUFFER_SIZE
          ([97] ++ List.replicate (3 - [97].length) 0) with
      | none => (-1, DecState.init.emit idEnv [7])
      | some data => (0, (DecState.init.emit idEnv [7]).emit idEnv data) :=
  truncated_payload_not_detected idEnv [⟨0, 1, [7]⟩] (DecState.init.emit idEnv [7]) 3 [97] []
    (by
      intro f hf
      simp only [List.mem_singleton] at hf
      subst hf
      exact ⟨rfl, by norm_num [SIZE_T]⟩)
    rfl (by decide) (by norm_num [VECTOR_MAX]) rfl (by norm_num [SIZE_T]) rfl

/-! ## C6: unknown flag -/

/-- C6 (unknown flag aborts).  Let `frames` be complete frames whose stream decodes
successfully, leaving the decoder in state `st1`.  If a flag byte `b` other than 0 and 1 and
then any bytes `R` follow, the decoder loop returns `-1` in the very state `st1`, and
`decompress_file` returns `-1` with an output file that holds exactly the output of decoding
the frames alone: nothing is appended for `b` or for `R`. -/
theorem unknown_flag_aborts (E : Env) (frames : List Frame) (st1 : DecState) (b : Byte)
    (R dict : List Byte) (hc : ∀ f ∈ frames, f.complete)
    (hP : decompress_loop E ⟨stream_of frames, true⟩ DecState.init = (0, st1))
    (hb0 : b ≠ 0) (hb1 : b ≠ 1) (hd : E.createDDict dict = true) :
    decompress_loop E ⟨stream_of frames ++ [b] ++ R, true⟩ DecState.init = (-1, st1) ∧
    decompress_file E ⟨some (stream_of frames ++ [b] ++ R), true, some dict⟩ =
      { status := some (-1), output := st1.ofs } := by
  have hloop : decompress_loop E ⟨stream_of frames ++ [b] ++ R, true⟩ DecState.init =
      (-1, st1) := by
    rw [decompress_loop_stream_of E frames _ hc] at hP
    rw [List.append_assoc, decompress_loop_frames E frames _ _ hc, hP]
    simp only [if_true]
    exact decompress_loop_bad_flag E b R st1 hb0 hb1
  exact ⟨hloop, decompress_file_of_loop_fail E _ dict st1 hd hloop⟩

/-- C6 at a concrete input: one raw frame holding the byte 7, then the flag byte 2 and two
more bytes. -/
theorem unknown_flag_aborts_witness :
    decompress_loop idEnv ⟨stream_of [⟨0, 1, [7]⟩] ++ [2] ++ [0, 1], true⟩ DecState.init =
      (-1, DecState.init.emit idEnv [7]) ∧
    decompress_file idEnv ⟨some (stream_of [⟨0, 1, [7]⟩] ++ [2] ++ [0, 1]), true, some []⟩ =
      { status := some (-1), output := (DecState.init.emit idEnv [7]).ofs } :=
  unknown_flag_aborts idEnv [⟨0, 1, [7]⟩] (DecState.init.emit idEnv [7]) 2 [0, 1] []
    (by
      intro f hf
      simp only [List.mem_singleton] at hf
      subst hf
      exact ⟨rfl, by norm_num [SIZE_T]⟩)
    rfl (by decide) (by decide) rfl

/-! ## C7: decompression failure in the decoder -/

theorem compress_loop_cons_failed (E : Env) (st : EncState) (line : List Byte)
    (rest : List (List Byte)) (hlen : LEVEL1_THRESHOLD < line.length)
    (hfail : ZSTD_compress_usingCDict E (compression_level line.length)
      (max_compress_size E) line = none) :
    compress_loop E st (line :: rest) =
      compress_loop E { st with line_count := (st.line_count + 1) % SIZE_T } rest := by
  have h1 : compress_loop E st (line :: rest) = compress_loop E (compress_step E st line) rest :=
    rfl
  rw [h1]
  congr 1
  unfold compress_step
  simp [Nat.not_le.mpr hlen, hfail]

/-- C7 (decode-time decompression failure is fatal).  In a stream of complete frames, let the
frames `pre` decode to the records `recs` and let the next frame `f` be a COMPRESSED frame on
which the backend's decompress call fails.  Whatever follows, the decoder loop returns `-1`;
the output is exactly the records of `pre`, each followed by a newline; only the frames of
`pre` were counted, so no later frame is decoded; `decompress_file` returns `-1` with that
output.  The encoder behaves differently: after a compression failure on a line its loop goes
on with the remaining lines. -/
theorem decompression_failure_is_fatal (E : Env) (pre : List Frame) (recs : List (List Byte))
    (f : Frame) (post dict : List Byte) (hpre : ∀ g ∈ pre, g.complete)
    (hdec : pre.map (decode_payload E) = recs.map some) (hf : f.complete) (hflag : f.flag = 1)
    (hfail : ZSTD_decompress_usingDDict E DEFAULT_BUFFER_SIZE f.payload = none)
    (hd : E.createDDict dict = true) :
    (decompress_loop E ⟨stream_of pre ++ f.bytes ++ post, true⟩ DecState.init).1 = -1 ∧
    (decompress_loop E ⟨stream_of pre ++ f.bytes ++ post, true⟩ DecState.init).2.ofs =
      (recs.map (· ++ [NL])).flatten ∧
    (decompress_loop E ⟨stream_of pre ++ f.bytes ++ post, true⟩ DecState.init).2.line_count
      % SIZE_T = pre.length % SIZE_T ∧
    decompress_file E ⟨some (stream_of pre ++ f.bytes ++ post), true, some dict⟩ =
      { status := some (-1), output := (recs.map (· ++ [NL])).flatten } ∧
    (∀ (st : EncState) (line : List Byte) (rest : List (List Byte)),
      LEVEL1_THRESHOLD < line.length →
      ZSTD_compress_usingCDict E (compression_level line.length) (max_compress_size E) line
        = none →
      compress_loop E st (line :: rest) =
        compress_loop E { st with line_count := (st.line_count + 1) % SIZE_T } rest) := by
  have hpay : decode_payload E f = none := by
    have h10 : ¬ ((1 : Byte) = 0) := by decide
    simp [decode_payload, hflag, h10, hfail]
  have hloop : decompress_loop E ⟨stream_of pre ++ f.bytes ++ post, true⟩ DecState.init =
      (-1, emit_all E DecState.init recs) := by
    rw [List.append_assoc, decompress_loop_frames E pre _ _ hpre,
      run_frames_of_decoded E pre recs _ hdec]
    simp only [if_true]
    rw [decompress_loop_frame E f post _ hf, hpay]
  have hofs : (emit_all E DecState.init recs).ofs = (recs.map (· ++ [NL])).flatten := by
    rw [emit_all_ofs]
    rfl
  have hl : recs.length = pre.length := by
    have := congrArg List.length hdec
    simpa using this.symm
  refine ⟨by rw [hloop], by rw [hloop, hofs], ?_, ?_, ?_⟩
  · rw [hloop, emit_all_line_count, hl]
    simp [DecState.init]
  · rw [decompress_file_of_loop_fail E _ dict _ hd hloop, hofs]
  · intro st line rest hlen hfail'
    exact compress_loop_cons_failed E st line rest hlen hfail'

/-- C7 at a concrete input: with the backend that fails on every call, a raw frame holding the
byte 7, a compressed frame, and one more raw frame. -/
theorem decompression_failure_is_fatal_witness :
    (decompress_loop failEnv
        ⟨stream_of [⟨0, 1, [7]⟩] ++ Frame.bytes ⟨1, 2, [5, 6]⟩ ++ Frame.bytes ⟨0, 1, [8]⟩, true⟩
        DecState.init).1 = -1 ∧
    (decompress_loop failEnv
        ⟨stream_of [⟨0, 1, [7]⟩] ++ Frame.bytes ⟨1, 2, [5, 6]⟩ ++ Frame.bytes ⟨0, 1, [8]⟩, true⟩
        DecState.init).2.ofs = ([[7]].map (· ++ [NL])).flatten ∧
    (decompress_loop failEnv
        ⟨stream_of [⟨0, 1, [7]⟩] ++ Frame.bytes ⟨1, 2, [5, 6]⟩ ++ Frame.bytes ⟨0, 1, [8]⟩, true⟩
        DecState.init).2.line_count % SIZE_T = [(⟨0, 1, [7]⟩ : Frame)].length % SIZE_T ∧
    decompress_file failEnv
        ⟨some (stream_of [⟨0, 1, [7]⟩] ++ Frame.bytes ⟨1, 2, [5, 6]⟩ ++ Frame.bytes ⟨0, 1, [8]⟩),
          true, some []⟩ =
      { status := some (-1), output := ([[7]].map (· ++ [NL])).flatten } ∧
    (∀ (st : EncState) (line : List Byte) (rest : List (List Byte)),
      LEVEL1_THRESHOLD < line.length →
      ZSTD_compress_usingCDict failEnv (compression_level line.length)
        (max_compress_size failEnv) line = none →
      compress_loop failEnv st (line :: rest) =
        compress_loop failEnv { st with line_count := (st.line_count + 1) % SIZE_T } rest) :=
  decompression_failure_is_fatal failEnv [⟨0, 1, [7]⟩] [[7]] ⟨1, 2, [5, 6]⟩
    (Frame.bytes ⟨0, 1, [8]⟩) []
    (by
      intro g hg
      simp only [List.mem_singleton] at hg
      subst hg
      exact ⟨rfl, by norm_num [SIZE_T]⟩)
    rfl ⟨rfl, by norm_num [SIZE_T]⟩ rfl rfl rfl

/-! ## C9: percentile by linear interpolation -/

theorem percentile_eq_spec (data : List ℚ) (p : ℚ) (h0 : 0 < data.length)
    (hN : data.length < SIZE_T) (hp0 : 0 ≤ p) (hp1 : p ≤ 1) :
    percentile data p = some (percentile_spec data p) := by
  obtain ⟨hlo, hhi, h⟩ := percentile_formula data p h0 hN hp0 hp1
  have hcast : ((data.length - 1 : Nat) : ℚ) = (data.length : ℚ) - 1 := by
    rw [Nat.cast_sub h0]
    simp
  rw [h]
  simp only [percentile_spec, ← hcast, List.getD_eq_getElem _ _ hlo, List.getD_eq_getElem _ _ hhi]

theorem percentile_spec_of_floor (data : List ℚ) (p : ℚ) (lo : Nat)
    (h0 : 0 ≤ p * ((data.length : ℚ) - 1))
    (h1 : (lo : ℚ) ≤ p * ((data.length : ℚ) - 1)) (h2 : p * ((data.length : ℚ) - 1) < lo + 1) :
    percentile_spec data p =
      data.getD lo 0 * (1 - (p * ((data.length : ℚ) - 1) - lo)) +
        data.getD (min (lo + 1) (data.length - 1)) 0 * (p * ((data.length : ℚ) - 1) - lo) := by
  have hfl : ⌊p * ((data.length : ℚ) - 1)⌋₊ = lo := (Nat.floor_eq_iff h0).mpr ⟨h1, h2⟩
  simp only [percentile_spec, hfl]

theorem percentile_spec_zero (data : List ℚ) (hne : data ≠ []) :
    percentile_spec data 0 = data.head hne := by
  rw [percentile_spec_of_floor data 0 0 (by simp) (by simp) (by simp)]
  cases data with
  | nil => exact absurd rfl hne
  | cons a rest => simp

theorem percentile_spec_one (data : List ℚ) (hne : data ≠ []) :
    percentile_spec data 1 = data.getLast hne := by
  have h0 : 0 < data.length := List.length_pos.mpr hne
  have hcast : (data.length : ℚ) - 1 = ((data.length - 1 : Nat) : ℚ) := by
    rw [Nat.cast_sub h0]
    simp
  rw [percentile_spec_of_floor data 1 (data.length - 1) (by rw [one_mul, hcast]; positivity)
    (by rw [one_mul, hcast]) (by rw [one_mul, hcast]; linarith)]
  have hmin : min (data.length - 1 + 1) (data.length - 1) = data.length - 1 := by omega
  rw [hmin, one_mul, hcast, sub_self, sub_zero, mul_one, mul_zero, add_zero,
    List.getD_eq_getElem _ _ (by omega), List.getLast_eq_getElem]

/-- C9 (percentile by linear interpolation).  In exact rational arithmetic, for a non-empty
vector `data` of size `n` and `0 ≤ p ≤ 1`, `percentile data p` reads inside the vector and
returns `data[lo]*(1-w) + data[hi]*w` with `rank = p*(n-1)`, `lo = floor(rank)`,
`hi = min(lo+1, n-1)`, `w = rank - lo`.  Hence `percentile data 0` is the first and
`percentile data 1` the last element; on `[1,2,3,4]` the values at `p = 0, 1/2, 1` are
`1, 5/2, 4`; and the copy of `percentile` in the decoder computes the same function. -/
theorem percentile_interpolation (data : List ℚ) (p : ℚ) (hne : data ≠ [])
    (hN : data.length < SIZE_T) (hp0 : 0 ≤ p) (hp1 : p ≤ 1) :
    percentile data p = some (percentile_spec data p) ∧
    percentile data 0 = some (data.head hne) ∧
    percentile data 1 = some (data.getLast hne) ∧
    (percentile [1, 2, 3, 4] 0 = some 1 ∧ percentile [1, 2, 3, 4] (1 / 2) = some (5 / 2) ∧
      percentile [1, 2, 3, 4] 1 = some 4) ∧
    (∀ (d : List ℚ) (q : ℚ), decompress_json.percentile d q = percentile d q) := by
  have h0 : 0 < data.length := List.length_pos.mpr hne
  have h4 : ([1, 2, 3, 4] : List ℚ).length < SIZE_T := by norm_num [SIZE_T]
  have h4ne : ([1, 2, 3, 4] : List ℚ) ≠ [] := by simp
  refine ⟨percentile_eq_spec data p h0 hN hp0 hp1, ?_, ?_, ⟨?_, ?_, ?_⟩, fun _ _ => rfl⟩
  · rw [percentile_eq_spec data 0 h0 hN (le_refl _) zero_le_one, percentile_spec_zero data hne]
  · rw [percentile_eq_spec data 1 h0 hN zero_le_one (le_refl _), percentile_spec_one data hne]
  · rw [percentile_eq_spec _ 0 (by simp) h4 (le_refl _) zero_le_one,
      percentile_spec_zero _ h4ne]
    rfl
  · rw [percentile_eq_spec _ (1 / 2) (by simp) h4 (by norm_num) (by norm_num),
      percentile_spec_of_floor _ (1 / 2) 1 (by norm_num) (by norm_num) (by norm_num)]
    norm_num
  · rw [percentile_eq_spec _ 1 (by simp) h4 zero_le_one (le_refl _),
      percentile_spec_one _ h4ne]
    rfl

/-- C9 at a concrete input: the vector `[1, 2, 3, 4]` and `p = 1/2`. -/
theorem percentile_interpolation_witness :
    percentile [1, 2, 3, 4] (1 / 2) = some (percentile_spec [1, 2, 3, 4] (1 / 2)) ∧
    percentile [1, 2, 3, 4] 0 = some (([1, 2, 3, 4] : List ℚ).head (by simp)) ∧
    percentile [1, 2, 3, 4] 1 = some (([1, 2, 3, 4] : List ℚ).getLast (by simp)) ∧
    (percentile [1, 2, 3, 4] 0 = some 1 ∧ percentile [1, 2, 3, 4] (1 / 2) = some (5 / 2) ∧
      percentile [1, 2, 3, 4] 1 = some 4) ∧
    (∀ (d : List ℚ) (q : ℚ), decompress_json.percentile d q = percentile d q) :=
  percentile_interpolation [1, 2, 3, 4] (1 / 2) (by simp) (by norm_num [SIZE_T])
    (by norm_num) (by norm_num)

/-! ## Samples, totals and the report of the encoder -/

theorem compress_file_eq (E : Env) (input dict : List Byte) (hd : E.createCDict dict = true) :
    compress_file E ⟨some input, true, some dict⟩ =
      { status :=
          if (compress_report (compress_loop E EncState.init (getlines input))).times.defined &&
              (compress_report (compress_loop E EncState.init (getlines input))).ratios.defined
          then some 0 else none
        output := (compress_loop E EncState.init (getlines input)).output_fp } := by
  simp [compress_file, hd]

theorem compress_step_samples (E : Env) (st : EncState) (line : List Byte) :
    (compress_step E st line).compression_times.length =
        st.compression_times.length + (if is_compressed E line then 1 else 0) ∧
    (compress_step E st line).compression_ratios.length =
        st.compression_ratios.length + (if is_compressed E line then 1 else 0) := by
  unfold compress_step is_compressed
  by_cases h : line.length ≤ LEVEL1_THRESHOLD
  · simp [h, Nat.not_lt.mpr h]
  · simp only [h, if_false, Nat.not_le.mp h, decide_True, Bool.true_and]
    cases ZSTD_compress_usingCDict E (compression_level line.length)
      (max_compress_size E) line <;> simp

theorem compress_loop_samples (E : Env) (st : EncState) (lines : List (List Byte)) :
    (compress_loop E st lines).compression_times.length =
        st.compression_times.length + (lines.filter (is_compressed E)).length ∧
    (compress_loop E st lines).compression_ratios.length =
        st.compression_ratios.length + (lines.filter (is_compressed E)).length := by
  induction lines generalizing st with
  | nil => simp [compress_loop]
  | cons line rest ih =>
    have h1 : compress_loop E st (line :: rest) = compress_loop E (compress_step E st line) rest :=
      rfl
    obtain ⟨hs1, hs2⟩ := compress_step_samples E st line
    obtain ⟨ih1, ih2⟩ := ih (compress_step E st line)
    rw [h1, ih1, ih2, hs1, hs2]
    by_cases hc : is_compressed E line = true
    · simp [List.filter_cons, hc]
      omega
    · simp [List.filter_cons, hc]

/-- When no line is compressed the sample vectors stay empty and `compress_file` reads
`front()` of an empty vector before it can return. -/
theorem compress_file_no_samples (E : Env) (input dict : List Byte)
    (hd : E.createCDict dict = true)
    (hnone : ∀ line ∈ getlines input, is_compressed E line = false) :
    (compress_loop E EncState.init (getlines input)).compression_times = [] ∧
    (compress_loop E EncState.init (getlines input)).compression_ratios = [] ∧
    (compress_file E ⟨some input, true, some dict⟩).status = none := by
  obtain ⟨h1, h2⟩ := compress_loop_samples E EncState.init (getlines input)
  have hf : (getlines input).filter (is_compressed E) = [] := by
    rw [List.filter_eq_nil_iff]
    intro line hl
    rw [hnone line hl]
    simp
  rw [hf] at h1 h2
  have ht : (compress_loop E EncState.init (getlines input)).compression_times = [] :=
    List.length_eq_zero.mp (by rw [h1]; rfl)
  have hr : (compress_loop E EncState.init (getlines input)).compression_ratios = [] :=
    List.length_eq_zero.mp (by rw [h2]; rfl)
  refine ⟨ht, hr, ?_⟩
  rw [compress_file_eq E input dict hd]
  simp only [compress_report, ht, summary_nil_undefined, Bool.false_and]
  rfl

theorem summary_nil_fields :
    (summary ([].insertionSort (· ≤ ·))).min = none ∧
    (summary ([].insertionSort (· ≤ ·))).p25 = none ∧
    (summary ([].insertionSort (· ≤ ·))).p50 = none ∧
    (summary ([].insertionSort (· ≤ ·))).p75 = none ∧
    (summary ([].insertionSort (· ≤ ·))).p95 = none ∧
    (summary ([].insertionSort (· ≤ ·))).max = none := by
  simp [summary, percentile_nil]

theorem is_compressed_of_short (E : Env) (line : List Byte)
    (h : line.length ≤ LEVEL1_THRESHOLD) : is_compressed E line = false := by
  simp [is_compressed, Nat.not_lt.mpr h]

/-! ## C8: the report on an empty sample set -/

/-- C8, evaluated at the failing inputs.  On the empty input file the stream is empty, and on
the one-line file `"a\n"` it holds one RAW frame; in both runs no sample is recorded, and the
report is not guarded: `front()`, `back()` and every `percentile` call read outside the empty
vector, the average ratio divides by the zero input total, on the empty file the average time
divides by the zero line count, and `compress_file` does not reach its `return 0`. -/
theorem empty_samples_unguarded :
    ((compress_file idEnv ⟨some [], true, some []⟩).output = [] ∧
      (compress_file idEnv ⟨some [], true, some []⟩).status = none ∧
      (compress_report (compress_loop idEnv EncState.init (getlines []))).average_time = none ∧
      (compress_report (compress_loop idEnv EncState.init (getlines []))).average_compression_ratio
        = none ∧
      (compress_report (compress_loop idEnv EncState.init (getlines []))).times =
        ⟨none, none, none, none, none, none⟩ ∧
      (compress_report (compress_loop idEnv EncState.init (getlines []))).ratios =
        ⟨none, none, none, none, none, none⟩) ∧
    ((compress_file idEnv ⟨some [97, 10], true, some []⟩).output =
        [0, 1, 0, 0, 0, 0, 0, 0, 0, 97] ∧
      (compress_file idEnv ⟨some [97, 10], true, some []⟩).status = none ∧
      (compress_report (compress_loop idEnv EncState.init (getlines [97, 10]))).average_compression_ratio
        = none ∧
      (compress_report (compress_loop idEnv EncState.init (getlines [97, 10]))).times =
        ⟨none, none, none, none, none, none⟩ ∧
      (compress_report (compress_loop idEnv EncState.init (getlines [97, 10]))).ratios =
        ⟨none, none, none, none, none, none⟩) := by
  have hsum : summary ([].insertionSort (· ≤ ·)) = ⟨none, none, none, none, none, none⟩ := by
    simp [summary, percentile_nil]
  have e1 : compress_loop idEnv EncState.init (getlines []) = EncState.init := rfl
  have e2 : compress_loop idEnv EncState.init (getlines [97, 10]) =
      { EncState.init with output_fp := [0, 1, 0, 0, 0, 0, 0, 0, 0, 97], line_count := 1 } := by
    rfl
  have s1 := compress_file_no_samples idEnv [] [] rfl (by simp [getlines, getlines_from])
  have s2 := compress_file_no_samples idEnv [97, 10] [] rfl (by
    intro line hl
    exact is_compressed_of_short idEnv line (by
      have : getlines [97, 10] = [[97]] := by decide
      rw [this, List.mem_singleton] at hl
      subst hl
      decide))
  refine ⟨⟨?_, s1.2.2, ?_, ?_, ?_, ?_⟩, ⟨?_, s2.2.2, ?_, ?_, ?_⟩⟩
  · rfl
  · rw [e1]
    simp [compress_report, EncState.init, ratio]
  · rw [e1]
    simp [compress_report, EncState.init, ratio]
  · rw [e1]
    exact hsum
  · rw [e1]
    exact hsum
  · rw [compress_file_eq idEnv _ [] rfl, e2]
  · rw [e2]
    simp [compress_report, EncState.init, ratio]
  · rw [e2]
    exact hsum
  · rw [e2]
    exact hsum

/-! ## C5: a record whose compression fails -/

theorem encode_frame_eq_none_iff (E : Env) (line : List Byte) :
    encode_frame E line = none ↔ compression_fails E line = true := by
  unfold encode_frame compression_fails
  by_cases h : line.length ≤ LEVEL1_THRESHOLD
  · simp [h, Nat.not_lt.mpr h]
  · simp only [h, if_false, Nat.not_le.mp h, decide_True, Bool.true_and]
    cases ZSTD_compress_usingCDict E (compression_level line.length)
      (max_compress_size E) line <;> simp

/-- The encoder loop drops the lines whose compression fails and nothing else: the stream is
the one written for the list without them, with one frame for every other line. -/
theorem compress_loop_drops_failed (E : Env) (lines : List (List Byte)) :
    (compress_loop E EncState.init lines).output_fp =
      (compress_loop E EncState.init
        (lines.filter (fun l => !compression_fails E l))).output_fp ∧
    (lines.filterMap (encode_frame E)).length + (lines.filter (compression_fails E)).length =
      lines.length := by
  constructor
  · rw [compress_loop_output, compress_loop_output]
    congr 2
    induction lines with
    | nil => rfl
    | cons line rest ih =>
      cases hf : encode_frame E line with
      | none =>
        have := (encode_frame_eq_none_iff E line).mp hf
        simp [List.filterMap_cons, List.filter_cons, hf, this, ih]
      | some f =>
        have hnf : compression_fails E line = false := by
          cases hcf : compression_fails E line with
          | false => rfl
          | true =>
            rw [(encode_frame_eq_none_iff E line).mpr hcf] at hf
            exact absurd hf (by simp)
        simp [List.filterMap_cons, List.filter_cons, hf, hnf, ih]
  · induction lines with
    | nil => rfl
    | cons line rest ih =>
      cases hf : encode_frame E line with
      | none =>
        have := (encode_frame_eq_none_iff E line).mp hf
        simp [List.filterMap_cons, List.filter_cons, hf, this]
        omega
      | some f =>
        have hnf : compression_fails E line = false := by
          cases hcf : compression_fails E line with
          | false => rfl
          | true =>
            rw [(encode_frame_eq_none_iff E line).mpr hcf] at hf
            exact absurd hf (by simp)
        simp [List.filterMap_cons, List.filter_cons, hf, hnf]
        omega

/-- With at least one compressed line (and fewer than `2 ^ 64` lines) the report reads inside
its vectors and `compress_file` returns 0, whatever lines were dropped. -/
theorem compress_file_returns_zero (E : Env) (input dict : List Byte)
    (hd : E.createCDict dict = true) (hcount : (getlines input).length < SIZE_T)
    (hsome : ∃ line ∈ getlines input, is_compressed E line = true) :
    (compress_file E ⟨some input, true, some dict⟩).status = some 0 := by
  obtain ⟨h1, h2⟩ := compress_loop_samples E EncState.init (getlines input)
  obtain ⟨line, hl, hc⟩ := hsome
  have hpos : 0 < ((getlines input).filter (is_compressed E)).length :=
    List.length_pos.mpr (List.ne_nil_of_mem (List.mem_filter.mpr ⟨hl, hc⟩))
  have hle : ((getlines input).filter (is_compressed E)).length ≤ (getlines input).length :=
    List.length_filter_le _ _
  have e0 : EncState.init.compression_times.length = 0 := rfl
  have e1 : EncState.init.compression_ratios.length = 0 := rfl
  rw [e0] at h1
  rw [e1] at h2
  have ht := summary_defined (compress_loop E EncState.init (getlines input)).compression_times
    (by omega) (by omega)
  have hr := summary_defined (compress_loop E EncState.init (getlines input)).compression_ratios
    (by omega) (by omega)
  rw [compress_file_eq E input dict hd]
  simp only [compress_report, ht, hr, Bool.and_self, if_true]

/-- C5, evaluated at the failing input: the input file holds one line of 1025 bytes and the
backend reports an error on it.  The line is dropped and the stream is empty, as for the empty
list; but no sample was recorded, so the report reads `front()` of an empty vector and
`compress_file` does not reach its `return 0`. -/
theorem dropped_record_no_return :
    getlines (List.replicate 1025 0 ++ [NL]) = [List.replicate 1025 0] ∧
    compression_fails failEnv (List.replicate 1025 0) = true ∧
    (compress_file failEnv ⟨some (List.replicate 1025 0 ++ [NL]), true, some []⟩).output = [] ∧
    (compress_file failEnv ⟨some (List.replicate 1025 0 ++ [NL]), true, some []⟩).status
      = none := by
  have hfail : ∀ (level : Int) (cap : Nat) (src : List Byte),
      ZSTD_compress_usingCDict failEnv level cap src = none := fun _ _ _ => rfl
  have hlen : LEVEL1_THRESHOLD < (List.replicate 1025 (0 : Byte)).length := by
    rw [List.length_replicate]
    decide
  have hlines : getlines (List.replicate 1025 0 ++ [NL]) = [List.replicate 1025 0] := by
    have h := getlines_terminated [List.replicate 1025 0] (by
      intro r hr
      rw [List.mem_singleton] at hr
      subst hr
      intro hmem
      exact absurd (List.eq_of_mem_replicate hmem) (by decide))
    simp only [List.map_cons, List.map_nil, List.flatten_cons, List.flatten_nil,
      List.append_nil] at h
    exact h
  refine ⟨hlines, ?_, ?_, ?_⟩
  · unfold compression_fails
    rw [hfail]
    simp only [hlen, decide_True, Option.isNone_none, Bool.and_self]
  · rw [compress_file_eq failEnv _ [] rfl, hlines]
    simp only []
    rw [compress_loop_cons_failed failEnv _ _ [] hlen (hfail _ _ _)]
    rfl
  · refine (compress_file_no_samples failEnv _ [] rfl ?_).2.2
    intro line _
    simp [is_compressed, hfail]

/-! ## C10: byte totals -/

theorem compress_loop_totals (E : Env) (st : EncState) (lines : List (List Byte))
    (h1 : st.total_input_size < SIZE_T) (h2 : st.total_compressed_size < SIZE_T) :
    (compress_loop E st lines).total_input_size =
      (st.total_input_size + ((lines.filter (is_compressed E)).map List.length).sum) % SIZE_T ∧
    (compress_loop E st lines).total_compressed_size =
      (st.total_compressed_size +
        (((lines.filterMap (encode_frame E)).filter (fun f => f.flag = 1)).map
          (fun f => f.payload.length)).sum) % SIZE_T := by
  induction lines generalizing st with
  | nil =>
    simp only [compress_loop, List.foldl_nil, List.filter_nil, List.filterMap_nil, List.map_nil,
      List.sum_nil, Nat.add_zero]
    exact ⟨(Nat.mod_eq_of_lt h1).symm, (Nat.mod_eq_of_lt h2).symm⟩
  | cons line rest ih =>
    have hstep : compress_loop E st (line :: rest) =
        compress_loop E (compress_step E st line) rest := rfl
    have hM : 0 < SIZE_T := by norm_num [SIZE_T]
    rw [hstep]
    by_cases h : line.length ≤ LEVEL1_THRESHOLD
    · have hs1 : (compress_step E st line).total_input_size = st.total_input_size := by
        simp [compress_step, h]
      have hs2 : (compress_step E st line).total_compressed_size = st.total_compressed_size := by
        simp [compress_step, h]
      have hic : is_compressed E line = false := is_compressed_of_short E line h
      have hef : encode_frame E line = some ⟨0, line.length, line⟩ := by simp [encode_frame, h]
      obtain ⟨i1, i2⟩ := ih (compress_step E st line) (by rw [hs1]; exact h1)
        (by rw [hs2]; exact h2)
      rw [i1, i2, hs1, hs2]
      have h01 : ¬ ((0 : Byte) = 1) := by decide
      simp [List.filter_cons, List.filterMap_cons, hic, hef, h01]
    · cases hc : ZSTD_compress_usingCDict E (compression_level line.length)
          (max_compress_size E) line with
      | none =>
        have hs1 : (compress_step E st line).total_input_size = st.total_input_size := by
          simp [compress_step, h, hc]
        have hs2 : (compress_step E st line).total_compressed_size =
            st.total_compressed_size := by
          simp [compress_step, h, hc]
        have hic : is_compressed E line = false := by simp [is_compressed, hc]
        have hef : encode_frame E line = none := by simp [encode_frame, h, hc]
        obtain ⟨i1, i2⟩ := ih (compress_step E st line) (by rw [hs1]; exact h1)
          (by rw [hs2]; exact h2)
        rw [i1, i2, hs1, hs2]
        simp [List.filter_cons, List.filterMap_cons, hic, hef]
      | some c =>
        have hs1 : (compress_step E st line).total_input_size =
            (st.total_input_size + line.length) % SIZE_T := by
          simp [compress_step, h, hc]
        have hs2 : (compress_step E st line).total_compressed_size =
            (st.total_compressed_size + c.length) % SIZE_T := by
          simp [compress_step, h, hc]
        have hic : is_compressed E line = true := by
          simp [is_compressed, hc, Nat.not_le.mp h]
        have hef : encode_frame E line = some ⟨1, c.length, c⟩ := by
          simp [encode_frame, h, hc]
        obtain ⟨i1, i2⟩ := ih (compress_step E st line) (by rw [hs1]; exact Nat.mod_lt _ hM)
          (by rw [hs2]; exact Nat.mod_lt _ hM)
        rw [i1, i2, hs1, hs2]
        simp only [List.filter_cons, List.filterMap_cons, hic, hef, if_true, List.map_cons,
          List.sum_cons, decide_True]
        constructor
        · rw [Nat.mod_add_mod, Nat.add_assoc]
        · rw [Nat.mod_add_mod, Nat.add_assoc]

theorem is_compressed_of_not_fails (E : Env) (line : List Byte)
    (h : compression_fails E line = false) :
    is_compressed E line = decide (1024 < line.length) := by
  unfold compression_fails at h
  unfold is_compressed LEVEL1_THRESHOLD
  unfold LEVEL1_THRESHOLD at h
  by_cases hl : 1024 < line.length
  · simp only [hl, decide_True, Bool.true_and] at h ⊢
    cases hc : ZSTD_compress_usingCDict E (compression_level line.length)
        (max_compress_size E) line with
    | none => simp [hc] at h
    | some c => rfl
  · simp [hl]

/-- C10, counterexample.  The input is one record of one byte; no compression fails.  The
record is stored raw, and the input total `compress_file` accumulates is 0, not the record's
length 1. -/
theorem raw_record_not_in_input_total :
    (∀ line ∈ ([[7]] : List (List Byte)), compression_fails idEnv line = false) ∧
    (compress_loop idEnv EncState.init [[7]]).output_fp = [0, 1, 0, 0, 0, 0, 0, 0, 0, 7] ∧
    (compress_loop idEnv EncState.init [[7]]).total_input_size = 0 ∧
    (([[7]] : List (List Byte)).map List.length).sum = 1 := by
  refine ⟨?_, by decide, by decide, by decide⟩
  intro line hl
  rw [List.mem_singleton] at hl
  subst hl
  decide

/-- C10, as amended.  With no compression failure, the input total accumulated by
`compress_file` is the sum of the lengths of the records longer than 1024 bytes only (the
records it compresses; a record stored raw adds nothing), and the compressed total is the sum
of the payload lengths of the COMPRESSED frames; both are `size_t` sums, modulo `2 ^ 64`. -/
theorem byte_totals (E : Env) (lines : List (List Byte))
    (hok : ∀ line ∈ lines, compression_fails E line = false) :
    (compress_loop E EncState.init lines).total_input_size =
      ((lines.filter (fun l => decide (1024 < l.length))).map List.length).sum % SIZE_T ∧
    (compress_loop E EncState.init lines).total_compressed_size =
      (((lines.filterMap (encode_frame E)).filter (fun f => f.flag = 1)).map
        (fun f => f.payload.length)).sum % SIZE_T := by
  have hM : 0 < SIZE_T := by norm_num [SIZE_T]
  obtain ⟨h1, h2⟩ := compress_loop_totals E EncState.init lines hM hM
  have hfilter : lines.filter (is_compressed E) =
      lines.filter (fun l => decide (1024 < l.length)) := by
    apply List.filter_congr
    intro l hl
    exact is_compressed_of_not_fails E l (hok l hl)
  rw [hfilter] at h1
  have e1 : EncState.init.total_input_size = 0 := rfl
  have e2 : EncState.init.total_compressed_size = 0 := rfl
  rw [e1, Nat.zero_add] at h1
  rw [e2, Nat.zero_add] at h2
  exact ⟨h1, h2⟩

/-- C10 as amended, at a concrete input: a record of one byte and a record of 1025 bytes, with
the storing backend. -/
theorem byte_totals_witness :
    (compress_loop idEnv EncState.init [[7], List.replicate 1025 0]).total_input_size =
      ((([[7], List.replicate 1025 0] : List (List Byte)).filter
        (fun l => decide (1024 < l.length))).map List.length).sum % SIZE_T ∧
    (compress_loop idEnv EncState.init [[7], List.replicate 1025 0]).total_compressed_size =
      ((([[7], List.replicate 1025 0].filterMap (encode_frame idEnv)).filter
        (fun f => f.flag = 1)).map (fun f => f.payload.length)).sum % SIZE_T :=
  byte_totals idEnv [[7], List.replicate 1025 0]
    (by
      intro line hl
      have hcap : max_compress_size idEnv = 10485760 := by
        norm_num [max_compress_size, idEnv, CHUNK_SIZE, SIZE_T]
      have hz : ∀ (level : Int) (src : List Byte), src.length ≤ 10485760 →
          ZSTD_compress_usingCDict idEnv level (max_compress_size idEnv) src = some src := by
        intro level src hsrc
        unfold ZSTD_compress_usingCDict
        simp only [show idEnv.compress level src = some src from rfl, hcap, hsrc, if_true]
      have hlen : line.length ≤ 10485760 := by
        simp only [List.mem_cons, List.mem_singleton, List.not_mem_nil, or_false] at hl
        rcases hl with rfl | rfl
        · decide
        · rw [List.length_replicate]
          decide
      unfold compression_fails
      rw [hz _ line hlen]
      simp only [Option.isNone_some, Bool.and_false])

/-! ## C11: timing samples of the decoder -/

/-- C11, counterexample.  The stream holds one RAW frame and no COMPRESSED frame; it decodes
successfully, and `decompress_file` has recorded one timing sample for it. -/
theorem raw_frame_is_timed :
    (decompress_loop idEnv ⟨stream_of [⟨0, 1, [7]⟩], true⟩ DecState.init).1 = 0 ∧
    (decompress_loop idEnv ⟨stream_of [⟨0, 1, [7]⟩], true⟩
      DecState.init).2.decompression_times.length = 1 ∧
    (([⟨0, 1, [7]⟩] : List Frame).filter (fun f => f.flag = 1)).length = 0 := by
  refine ⟨by decide, by decide, by decide⟩

/-- C11, as amended.  For every stream of complete frames that decodes successfully, the
number of timing samples recorded by `decompress_file` equals the number of frames in the
stream, RAW and COMPRESSED alike: a RAW frame adds a timing sample just as it adds to the
record count, which is the number of frames as well (as a `size_t`). -/
theorem decoder_samples_count_frames (E : Env) (frames : List Frame) (st1 : DecState)
    (hc : ∀ f ∈ frames, f.complete)
    (hP : decompress_loop E ⟨stream_of frames, true⟩ DecState.init = (0, st1)) :
    st1.decompression_times.length = frames.length ∧
    st1.decompression_times.length =
      (frames.filter (fun f => f.flag = 0)).length +
        (frames.filter (fun f => f.flag = 1)).length ∧
    st1.line_count % SIZE_T = frames.length % SIZE_T := by
  rw [decompress_loop_stream_of E frames _ hc] at hP
  have hlen := run_frames_times_length E frames _ _ hP
  have hlen' : st1.decompression_times.length = frames.length := by
    simpa [DecState.init] using hlen
  obtain ⟨recs, hrecs⟩ := run_frames_ok_decoded E frames DecState.init (by rw [hP])
  have hl : recs.length = frames.length := by
    have := congrArg List.length hrecs
    simpa using this.symm
  have hflags : ∀ fs : List Frame, ∀ rs : List (List Byte),
      fs.map (decode_payload E) = rs.map some →
      (fs.filter (fun f => f.flag = 0)).length + (fs.filter (fun f => f.flag = 1)).length
        = fs.length := by
    intro fs
    induction fs with
    | nil => intro _ _; rfl
    | cons f rest ih =>
      intro rs h
      cases rs with
      | nil => simp at h
      | cons r rs' =>
        simp only [List.map_cons, List.cons.injEq] at h
        have ih' := ih rs' h.2
        by_cases h0 : f.flag = 0
        · have h1 : ¬ f.flag = 1 := by rw [h0]; decide
          simp [List.filter_cons, h0, h1]
          omega
        · by_cases h1 : f.flag = 1
          · simp [List.filter_cons, h0, h1]
            omega
          · have := h.1
            simp [decode_payload, h0, h1] at this
  refine ⟨hlen', ?_, ?_⟩
  · rw [hlen', hflags frames recs hrecs]
  · rw [run_frames_of_decoded E frames recs _ hrecs] at hP
    injection hP with _ h2
    rw [← h2, emit_all_line_count, hl]
    simp [DecState.init]

/-- C11 as amended, at a concrete input: a raw frame followed by a compressed frame, with the
storing backend. -/
theorem decoder_samples_count_frames_witness :
    ((DecState.init.emit idEnv [7]).emit idEnv [5, 6]).decompression_times.length =
      ([⟨0, 1, [7]⟩, ⟨1, 2, [5, 6]⟩] : List Frame).length ∧
    ((DecState.init.emit idEnv [7]).emit idEnv [5, 6]).decompression_times.length =
      (([⟨0, 1, [7]⟩, ⟨1, 2, [5, 6]⟩] : List Frame).filter (fun f => f.flag = 0)).length +
        (([⟨0, 1, [7]⟩, ⟨1, 2, [5, 6]⟩] : List Frame).filter (fun f => f.flag = 1)).length ∧
    ((DecState.init.emit idEnv [7]).emit idEnv [5, 6]).line_count % SIZE_T =
      ([⟨0, 1, [7]⟩, ⟨1, 2, [5, 6]⟩] : List Frame).length % SIZE_T :=
  decoder_samples_count_frames idEnv [⟨0, 1, [7]⟩, ⟨1, 2, [5, 6]⟩]
    ((DecState.init.emit idEnv [7]).emit idEnv [5, 6])
    (by
      intro f hf
      simp only [List.mem_cons, List.mem_singleton, List.not_mem_nil, or_false] at hf
      rcases hf with rfl | rfl
      · exact ⟨rfl, by norm_num [SIZE_T]⟩
      · exact ⟨rfl, by norm_num [SIZE_T]⟩)
    rfl

/-! ## C12: samples of the encoder -/

theorem encode_frame_cases (E : Env) (line : List Byte) :
    (line.length ≤ LEVEL1_THRESHOLD ∧ encode_frame E line = some ⟨0, line.length, line⟩ ∧
      is_compressed E line = false ∧ compression_fails E line = false) ∨
    (LEVEL1_THRESHOLD < line.length ∧ encode_frame E line = none ∧
      is_compressed E line = false ∧ compression_fails E line = true) ∨
    (∃ c, LEVEL1_THRESHOLD < line.length ∧ encode_frame E line = some ⟨1, c.length, c⟩ ∧
      is_compressed E line = true ∧ compression_fails E line = false) := by
  by_cases h : line.length ≤ LEVEL1_THRESHOLD
  · exact Or.inl ⟨h, by simp [encode_frame, h], is_compressed_of_short E line h,
      by simp [compression_fails, Nat.not_lt.mpr h]⟩
  · have hlt : LEVEL1_THRESHOLD < line.length := Nat.not_le.mp h
    cases hc : ZSTD_compress_usingCDict E (compression_level line.length)
        (max_compress_size E) line with
    | none =>
      exact Or.inr (Or.inl ⟨hlt, by simp [encode_frame, h, hc], by simp [is_compressed, hc],
        by simp [compression_fails, hc, hlt]⟩)
    | some c =>
      exact Or.inr (Or.inr ⟨c, hlt, by simp [encode_frame, h, hc],
        by simp [is_compressed, hc, hlt], by simp [compression_fails, hc]⟩)

theorem compressed_frames_count (E : Env) (lines : List (List Byte)) :
    ((lines.filterMap (encode_frame E)).filter (fun f => f.flag = 1)).length =
      (lines.filter (is_compressed E)).length := by
  induction lines with
  | nil => rfl
  | cons line rest ih =>
    have h01 : ¬ ((0 : Byte) = 1) := by decide
    rcases encode_frame_cases E line with ⟨_, he, hi, _⟩ | ⟨_, he, hi, _⟩ | ⟨c, _, he, hi, _⟩
    · simp [List.filterMap_cons, List.filter_cons, he, hi, h01, ih]
    · simp [List.filterMap_cons, List.filter_cons, he, hi, ih]
    · simp [List.filterMap_cons, List.filter_cons, he, hi, ih]

theorem compress_step_line_count (E : Env) (st : EncState) (line : List Byte) :
    (compress_step E st line).line_count = (st.line_count + 1) % SIZE_T := by
  unfold compress_step
  simp only
  split
  · rfl
  · split <;> rfl

theorem compress_loop_line_count_eq (E : Env) (lines : List (List Byte)) :
    (compress_loop E EncState.init lines).line_count = lines.length % SIZE_T := by
  have hM : 0 < SIZE_T := by norm_num [SIZE_T]
  have hlt : ∀ (ls : List (List Byte)) (st : EncState), st.line_count < SIZE_T →
      (compress_loop E st ls).line_count < SIZE_T := by
    intro ls
    induction ls with
    | nil => intro st h; exact h
    | cons l rest ih =>
      intro st _
      have h1 : compress_loop E st (l :: rest) = compress_loop E (compress_step E st l) rest :=
        rfl
      rw [h1]
      exact ih _ (by rw [compress_step_line_count]; exact Nat.mod_lt _ hM)
  have h := compress_loop_line_count E EncState.init lines
  rw [Nat.mod_eq_of_lt (hlt lines EncState.init hM)] at h
  rw [h]
  simp [EncState.init]

theorem compress_step_no_sample (E : Env) (st : EncState) (line : List Byte)
    (h : is_compressed E line = false) :
    (compress_step E st line).compression_times = st.compression_times ∧
    (compress_step E st line).compression_ratios = st.compression_ratios := by
  unfold compress_step
  by_cases hs : line.length ≤ LEVEL1_THRESHOLD
  · simp [hs]
  · simp only [hs, if_false]
    cases hc : ZSTD_compress_usingCDict E (compression_level line.length)
        (max_compress_size E) line with
    | none => exact ⟨rfl, rfl⟩
    | some c => simp [is_compressed, hc, Nat.not_le.mp hs] at h

/-- C12 (encoder samples match compressed frames).  After the encoder loop, for every list of
lines and every backend, the number of timing samples equals the number of ratio samples and
equals the number of COMPRESSED frames written.  A line stored raw (at most 1024 bytes) and a
line dropped after a compression failure leave both sample vectors unchanged.  The record
count is the number of input lines (as a `size_t`). -/
theorem encoder_samples_match_frames (E : Env) (lines : List (List Byte)) :
    (compress_loop E EncState.init lines).compression_times.length =
      (compress_loop E EncState.init lines).compression_ratios.length ∧
    (compress_loop E EncState.init lines).compression_times.length =
      ((lines.filterMap (encode_frame E)).filter (fun f => f.flag = 1)).length ∧
    (∀ (st : EncState) (line : List Byte),
      (line.length ≤ 1024 ∨ compression_fails E line = true) →
      (compress_step E st line).compression_times = st.compression_times ∧
      (compress_step E st line).compression_ratios = st.compression_ratios) ∧
    (compress_loop E EncState.init lines).line_count = lines.length % SIZE_T ∧
    (lines.length < SIZE_T → (compress_loop E EncState.init lines).line_count = lines.length) := by
  obtain ⟨h1, h2⟩ := compress_loop_samples E EncState.init lines
  have e1 : EncState.init.compression_times.length = 0 := rfl
  have e2 : EncState.init.compression_ratios.length = 0 := rfl
  rw [e1, Nat.zero_add] at h1
  rw [e2, Nat.zero_add] at h2
  refine ⟨by rw [h1, h2], by rw [h1, compressed_frames_count], ?_,
    compress_loop_line_count_eq E lines, ?_⟩
  · intro st line h
    apply compress_step_no_sample
    rcases encode_frame_cases E line with ⟨_, _, hi, _⟩ | ⟨_, _, hi, _⟩ | ⟨c, hlt, _, _, hf⟩
    · exact hi
    · exact hi
    · rcases h with h | h
      · have : line.length ≤ LEVEL1_THRESHOLD := h
        omega
      · rw [hf] at h
        exact absurd h (by decide)
  · intro hlt
    rw [compress_loop_line_count_eq, Nat.mod_eq_of_lt hlt]

/-! ## C14: streams concatenate -/

theorem percentile_eq_indices (data : List ℚ) (perc : ℚ) :
    percentile data perc =
      match data[lower_index data.length perc]?, data[upper_index data.length perc]? with
      | some lower, some upper =>
        some (lower * (1 - (perc * ((size_pred data.length : Nat) : ℚ) -
                (lower_index data.length perc : ℚ))) +
              upper * (perc * ((size_pred data.length : Nat) : ℚ) -
                (lower_index data.length perc : ℚ)))
      | _, _ => none := rfl

theorem index_values (n : Nat) (perc : ℚ) (hn : 0 < n) (hN : n < SIZE_T) (hp0 : 0 ≤ perc)
    (hp1 : perc ≤ 1) :
    lower_index n perc = ⌊perc * ((n - 1 : Nat) : ℚ)⌋₊ ∧
    upper_index n perc = min (⌊perc * ((n - 1 : Nat) : ℚ)⌋₊ + 1) (n - 1) ∧
    lower_index n perc < n ∧ upper_index n perc < n := by
  have hrank0 : 0 ≤ perc * ((n - 1 : Nat) : ℚ) := mul_nonneg hp0 (Nat.cast_nonneg _)
  have hrank1 : perc * ((n - 1 : Nat) : ℚ) ≤ ((n - 1 : Nat) : ℚ) := by
    have := mul_le_mul_of_nonneg_right hp1 (Nat.cast_nonneg (n - 1) : (0 : ℚ) ≤ _)
    simpa using this
  have hfl : ⌊perc * ((n - 1 : Nat) : ℚ)⌋₊ ≤ n - 1 := Nat.floor_le_of_le hrank1
  have hlo : lower_index n perc = ⌊perc * ((n - 1 : Nat) : ℚ)⌋₊ := by
    unfold lower_index size_pred
    rw [pred_size_t hn hN, double_to_size_t_of_nonneg hrank0]
    exact Nat.mod_eq_of_lt (by omega)
  have hhi : upper_index n perc = min (⌊perc * ((n - 1 : Nat) : ℚ)⌋₊ + 1) (n - 1) := by
    unfold upper_index
    rw [hlo]
    unfold size_pred
    rw [pred_size_t hn hN, Nat.mod_eq_of_lt (by omega)]
  refine ⟨hlo, hhi, by omega, ?_⟩
  rw [hhi]
  have := Nat.min_le_right (⌊perc * ((n - 1 : Nat) : ℚ)⌋₊ + 1) (n - 1)
  omega

/-- C15 (percentile indexing).  For a vector of size `n ≥ 1` and `0 ≤ p ≤ 1` the two indices
`percentile` reads, `lower_index = floor(p*(n-1))` and `upper_index = min(lower_index+1, n-1)`,
are both `< n`.  For `n = 0` the unsigned `n - 1` is `2^64 - 1` (so the lower index is `0` at
`p = 0` and `2^64 - 1` at `p = 1`), and for every `p` the element at the lower index does not
exist: the read is out of range. -/
theorem percentile_index_bounds (n : Nat) (p : ℚ) (hn : 1 ≤ n) (hN : n < SIZE_T) (hp0 : 0 ≤ p)
    (hp1 : p ≤ 1) :
    (lower_index n p = ⌊p * ((n - 1 : Nat) : ℚ)⌋₊ ∧
      upper_index n p = min (lower_index n p + 1) (n - 1) ∧
      lower_index n p < n ∧ upper_index n p < n) ∧
    (∀ (data : List ℚ) (q : ℚ), percentile data q =
      match data[lower_index data.length q]?, data[upper_index data.length q]? with
      | some lower, some upper =>
        some (lower * (1 - (q * ((size_pred data.length : Nat) : ℚ) -
                (lower_index data.length q : ℚ))) +
              upper * (q * ((size_pred data.length : Nat) : ℚ) -
                (lower_index data.length q : ℚ)))
      | _, _ => none) ∧
    (size_pred 0 = 2 ^ 64 - 1 ∧ lower_index 0 0 = 0 ∧ lower_index 0 1 = 2 ^ 64 - 1) ∧
    (∀ q : ℚ, ¬ lower_index 0 q < ([] : List ℚ).length ∧
      ([] : List ℚ)[lower_index 0 q]? = none ∧ percentile [] q = none) := by
  obtain ⟨h1, h2, h3, h4⟩ := index_values n p hn hN hp0 hp1
  have hpred : size_pred 0 = 2 ^ 64 - 1 := by norm_num [size_pred, SIZE_T]
  refine ⟨⟨h1, by rw [h2, h1], h3, h4⟩, percentile_eq_indices, ⟨hpred, ?_, ?_⟩, ?_⟩
  · unfold lower_index
    rw [zero_mul, double_to_size_t_of_nonneg (le_refl _)]
    simp
  · unfold lower_index
    rw [one_mul, double_to_size_t_of_nonneg (Nat.cast_nonneg _), Nat.floor_natCast, hpred]
    norm_num [SIZE_T]
  · intro q
    exact ⟨by simp, by simp, percentile_nil q⟩

/-- C15 at a concrete input: a vector of size 4 and `p = 1/2`. -/
theorem percentile_index_bounds_witness :
    (lower_index 4 (1 / 2) = ⌊(1 / 2 : ℚ) * ((4 - 1 : Nat) : ℚ)⌋₊ ∧
      upper_index 4 (1 / 2) = min (lower_index 4 (1 / 2) + 1) (4 - 1) ∧
      lower_index 4 (1 / 2) < 4 ∧ upper_index 4 (1 / 2) < 4) ∧
    (∀ (data : List ℚ) (q : ℚ), percentile data q =
      match data[lower_index data.length q]?, data[upper_index data.length q]? with
      | some lower, some upper =>
        some (lower * (1 - (q * ((size_pred data.length : Nat) : ℚ) -
                (lower_index data.length q : ℚ))) +
              upper * (q * ((size_pred data.length : Nat) : ℚ) -
                (lower_index data.length q : ℚ)))
      | _, _ => none) ∧
    (size_pred 0 = 2 ^ 64 - 1 ∧ lower_index 0 0 = 0 ∧ lower_index 0 1 = 2 ^ 64 - 1) ∧
    (∀ q : ℚ, ¬ lower_index 0 q < ([] : List ℚ).length ∧
      ([] : List ℚ)[lower_index 0 q]? = none ∧ percentile [] q = none) :=
  percentile_index_bounds 4 (1 / 2) (by decide) (by norm_num [SIZE_T]) (by norm_num)
    (by norm_num)

/-! ## C13: the reported average time -/

theorem calculate_total_eq_sum (data : List ℚ) : calculate_total data = data.sum := by
  unfold calculate_total
  rw [List.sum_eq_foldl]

theorem compress_loop_nil_samples (E : Env) :
    (compress_loop E EncState.init []).compression_times = [] := rfl

set_option maxRecDepth 100000 in
theorem sample_run_state :
    (compress_loop idEnv EncState.init [[7], List.replicate 1025 0]).compression_times = [1] ∧
    (compress_loop idEnv EncState.init [[7], List.replicate 1025 0]).line_count = 2 :=
  ⟨rfl, rfl⟩

/-- C13, counterexample.  The input holds a record of one byte (stored raw) and a record of
1025 bytes (compressed); the clock measures 1 ms for the compress call.  There is one timing
sample, `1`, whose arithmetic mean is `1`; the reported average compression time is `1/2`,
the total divided by the two lines read. -/
theorem average_time_divides_by_lines :
    (compress_loop idEnv EncState.init [[7], List.replicate 1025 0]).compression_times = [1] ∧
    ([1] : List ℚ).sum / (([1] : List ℚ).length : ℚ) = 1 ∧
    (compress_report
      (compress_loop idEnv EncState.init [[7], List.replicate 1025 0])).average_time
        = some (1 / 2) := by
  obtain ⟨ht, hl⟩ := sample_run_state
  refine ⟨ht, by norm_num, ?_⟩
  simp only [compress_report, calculate_total_eq_sum, ht, hl, ratio]
  norm_num

/-- C13, as amended.  For every run of `compress_file` with at least one timing sample, the
reported average compression time equals the sum of the timing samples divided by the number
of lines read (`line_count`, which also counts the records stored raw and the records
dropped).  It equals the arithmetic mean of the samples exactly when every line was compressed
or the samples sum to zero. -/
theorem average_time_per_line (E : Env) (lines : List (List Byte))
    (hs : (compress_loop E EncState.init lines).compression_times ≠ [])
    (hcount : lines.length < SIZE_T) :
    (compress_report (compress_loop E EncState.init lines)).average_time =
      some ((compress_loop E EncState.init lines).compression_times.sum / (lines.length : ℚ)) ∧
    ((compress_report (compress_loop E EncState.init lines)).average_time =
        some ((compress_loop E EncState.init lines).compression_times.sum /
          ((compress_loop E EncState.init lines).compression_times.length : ℚ)) ↔
      ((∀ line ∈ lines, is_compressed E line = true) ∨
        (compress_loop E EncState.init lines).compression_times.sum = 0)) := by
  have hne : lines ≠ [] := by
    intro h
    rw [h] at hs
    exact hs (compress_loop_nil_samples E)
  have hlc : (compress_loop E EncState.init lines).line_count = lines.length := by
    rw [compress_loop_line_count_eq, Nat.mod_eq_of_lt hcount]
  have hpos : (lines.length : ℚ) ≠ 0 := by
    have : 0 < lines.length := List.length_pos.mpr hne
    exact_mod_cast this.ne'
  have havg : (compress_report (compress_loop E EncState.init lines)).average_time =
      some ((compress_loop E EncState.init lines).compression_times.sum / (lines.length : ℚ)) := by
    simp only [compress_report, calculate_total_eq_sum, hlc, ratio, hpos, if_false]
  have hlen := (compress_loop_samples E EncState.init lines).1
  have e1 : EncState.init.compression_times.length = 0 := rfl
  rw [e1, Nat.zero_add] at hlen
  have htpos : ((compress_loop E EncState.init lines).compression_times.length : ℚ) ≠ 0 := by
    have : 0 < (compress_loop E EncState.init lines).compression_times.length :=
      List.length_pos.mpr hs
    exact_mod_cast this.ne'
  refine ⟨havg, ?_⟩
  rw [havg, Option.some.injEq, div_eq_div_iff hpos htpos]
  constructor
  · intro h
    by_cases hz : (compress_loop E EncState.init lines).compression_times.sum = 0
    · exact Or.inr hz
    · left
      have hTL : ((compress_loop E EncState.init lines).compression_times.length : ℚ) =
          (lines.length : ℚ) := mul_left_cancel₀ hz h
      have hTL' : (compress_loop E EncState.init lines).compression_times.length =
          lines.length := by exact_mod_cast hTL
      rw [hlen] at hTL'
      exact List.filter_length_eq_length.mp hTL'
  · rintro (hall | hz)
    · have hf : lines.filter (is_compressed E) = lines := List.filter_eq_self.mpr hall
      rw [hlen, hf]
    · rw [hz, zero_mul, zero_mul]

/-- C13 as amended, at a concrete input: a record of one byte and a record of 1025 bytes,
with the storing backend. -/
theorem average_time_per_line_witness :
    (compress_report
      (compress_loop idEnv EncState.init [[7], List.replicate 1025 0])).average_time =
      some ((compress_loop idEnv EncState.init [[7], List.replicate 1025 0]).compression_times.sum
        / (([[7], List.replicate 1025 0] : List (List Byte)).length : ℚ)) ∧
    ((compress_report
        (compress_loop idEnv EncState.init [[7], List.replicate 1025 0])).average_time =
        some ((compress_loop idEnv EncState.init [[7], List.replicate 1025 0]).compression_times.sum
          / ((compress_loop idEnv EncState.init
              [[7], List.replicate 1025 0]).compression_times.length : ℚ)) ↔
      ((∀ line ∈ ([[7], List.replicate 1025 0] : List (List Byte)),
          is_compressed idEnv line = true) ∨
        (compress_loop idEnv EncState.init
          [[7], List.replicate 1025 0]).compression_times.sum = 0)) :=
  average_time_per_line idEnv [[7], List.replicate 1025 0]
    (by rw [sample_run_state.1]; simp) (by norm_num [SIZE_T])

/-! ## C16: percentile is bounded and monotone -/

theorem sorted_getD_le (data : List ℚ) (hs : data.Sorted (· ≤ ·)) (i j : Nat) (hij : i ≤ j)
    (hj : j < data.length) : data.getD i 0 ≤ data.getD j 0 := by
  have hi : i < data.length := lt_of_le_of_lt hij hj
  rw [List.getD_eq_getElem _ _ hi, List.getD_eq_getElem _ _ hj]
  have h := hs.rel_get_of_le (a := ⟨i, hi⟩) (b := ⟨j, hj⟩) hij
  simpa using h

theorem percentile_spec_unfold (data : List ℚ) (p : ℚ) :
    percentile_spec data p =
      data.getD ⌊p * ((data.length : ℚ) - 1)⌋₊ 0 *
          (1 - (p * ((data.length : ℚ) - 1) - (⌊p * ((data.length : ℚ) - 1)⌋₊ : ℚ))) +
        data.getD (min (⌊p * ((data.length : ℚ) - 1)⌋₊ + 1) (data.length - 1)) 0 *
          (p * ((data.length : ℚ) - 1) - (⌊p * ((data.length : ℚ) - 1)⌋₊ : ℚ)) := rfl

theorem rank_bounds (n : Nat) (p : ℚ) (h0 : 0 < n) (hp0 : 0 ≤ p) (hp1 : p ≤ 1) :
    0 ≤ p * ((n : ℚ) - 1) ∧ ⌊p * ((n : ℚ) - 1)⌋₊ ≤ n - 1 := by
  have hcast : (n : ℚ) - 1 = ((n - 1 : Nat) : ℚ) := by
    rw [Nat.cast_sub h0]
    simp
  have hn1 : (0 : ℚ) ≤ (n : ℚ) - 1 := by rw [hcast]; exact Nat.cast_nonneg _
  refine ⟨mul_nonneg hp0 hn1, ?_⟩
  apply Nat.floor_le_of_le
  rw [← hcast]
  have := mul_le_mul_of_nonneg_right hp1 hn1
  simpa using this

theorem percentile_spec_between (data : List ℚ) (p : ℚ) (h0 : 0 < data.length)
    (hs : data.Sorted (· ≤ ·)) (hp0 : 0 ≤ p) (hp1 : p ≤ 1) :
    data.getD ⌊p * ((data.length : ℚ) - 1)⌋₊ 0 ≤ percentile_spec data p ∧
    percentile_spec data p ≤
      data.getD (min (⌊p * ((data.length : ℚ) - 1)⌋₊ + 1) (data.length - 1)) 0 := by
  obtain ⟨hr0, hfl⟩ := rank_bounds data.length p h0 hp0 hp1
  have hw0 : 0 ≤ p * ((data.length : ℚ) - 1) - (⌊p * ((data.length : ℚ) - 1)⌋₊ : ℚ) :=
    sub_nonneg.mpr (Nat.floor_le hr0)
  have hw1 : p * ((data.length : ℚ) - 1) - (⌊p * ((data.length : ℚ) - 1)⌋₊ : ℚ) ≤ 1 := by
    have := Nat.lt_floor_add_one (p * ((data.length : ℚ) - 1))
    linarith
  have hab := sorted_getD_le data hs ⌊p * ((data.length : ℚ) - 1)⌋₊
    (min (⌊p * ((data.length : ℚ) - 1)⌋₊ + 1) (data.length - 1))
    (by omega) (by omega)
  rw [percentile_spec_unfold]
  constructor
  · nlinarith [mul_nonneg (sub_nonneg.mpr hab) hw0]
  · nlinarith [mul_nonneg (sub_nonneg.mpr hab) (sub_nonneg.mpr hw1)]

theorem percentile_spec_mono (data : List ℚ) (p q : ℚ) (h0 : 0 < data.length)
    (hs : data.Sorted (· ≤ ·)) (hp0 : 0 ≤ p) (hpq : p ≤ q) (hq1 : q ≤ 1) :
    percentile_spec data p ≤ percentile_spec data q := by
  have hp1 : p ≤ 1 := le_trans hpq hq1
  have hq0 : 0 ≤ q := le_trans hp0 hpq
  obtain ⟨hrp0, hflp⟩ := rank_bounds data.length p h0 hp0 hp1
  obtain ⟨_, hflq⟩ := rank_bounds data.length q h0 hq0 hq1
  have hcast : (data.length : ℚ) - 1 = ((data.length - 1 : Nat) : ℚ) := by
    rw [Nat.cast_sub h0]
    simp
  have hn1 : (0 : ℚ) ≤ (data.length : ℚ) - 1 := by rw [hcast]; exact Nat.cast_nonneg _
  have hrank : p * ((data.length : ℚ) - 1) ≤ q * ((data.length : ℚ) - 1) :=
    mul_le_mul_of_nonneg_right hpq hn1
  have hfloor : ⌊p * ((data.length : ℚ) - 1)⌋₊ ≤ ⌊q * ((data.length : ℚ) - 1)⌋₊ :=
    Nat.floor_mono hrank
  rcases Nat.eq_or_lt_of_le hfloor with heq | hlt
  · have hab := sorted_getD_le data hs ⌊p * ((data.length : ℚ) - 1)⌋₊
      (min (⌊p * ((data.length : ℚ) - 1)⌋₊ + 1) (data.length - 1))
      (by omega) (by omega)
    rw [percentile_spec_unfold, percentile_spec_unfold, ← heq]
    nlinarith [mul_nonneg (sub_nonneg.mpr hab) (sub_nonneg.mpr hrank)]
  · have h1 := (percentile_spec_between data p h0 hs hp0 hp1).2
    have h2 := (percentile_spec_between data q h0 hs hq0 hq1).1
    have h3 := sorted_getD_le data hs
      (min (⌊p * ((data.length : ℚ) - 1)⌋₊ + 1) (data.length - 1))
      ⌊q * ((data.length : ℚ) - 1)⌋₊ (by omega) (by omega)
    exact le_trans h1 (le_trans h3 h2)

theorem percentile_spec_ge_head (data : List ℚ) (p : ℚ) (hne : data ≠ [])
    (hs : data.Sorted (· ≤ ·)) (hp0 : 0 ≤ p) (hp1 : p ≤ 1) :
    data.head hne ≤ percentile_spec data p := by
  have h0 : 0 < data.length := List.length_pos.mpr hne
  obtain ⟨_, hfl⟩ := rank_bounds data.length p h0 hp0 hp1
  have h1 := (percentile_spec_between data p h0 hs hp0 hp1).1
  have h2 := sorted_getD_le data hs 0 ⌊p * ((data.length : ℚ) - 1)⌋₊ (Nat.zero_le _)
    (by omega)
  rw [List.head_eq_getElem, ← List.getD_eq_getElem data 0 h0]
  exact le_trans h2 h1

theorem percentile_spec_le_last (data : List ℚ) (p : ℚ) (hne : data ≠ [])
    (hs : data.Sorted (· ≤ ·)) (hp0 : 0 ≤ p) (hp1 : p ≤ 1) :
    percentile_spec data p ≤ data.getLast hne := by
  have h0 : 0 < data.length := List.length_pos.mpr hne
  have h1 := (percentile_spec_between data p h0 hs hp0 hp1).2
  have h2 := sorted_getD_le data hs
    (min (⌊p * ((data.length : ℚ) - 1)⌋₊ + 1) (data.length - 1)) (data.length - 1)
    (Nat.min_le_right _ _) (by omega)
  rw [List.getLast_eq_getElem, ← List.getD_eq_getElem data 0 (by omega : data.length - 1 < _)]
  exact le_trans h1 h2

/-- The six values of a report summary over a non-empty sample vector exist and are in
order. -/
theorem summary_ordered (samples : List ℚ) (hne : samples ≠ []) (hN : samples.length < SIZE_T) :
    ∃ mn p25 p50 p75 p95 mx,
      summary (samples.insertionSort (· ≤ ·)) =
        ⟨some mn, some p25, some p50, some p75, some p95, some mx⟩ ∧
      mn ≤ p25 ∧ p25 ≤ p50 ∧ p50 ≤ p75 ∧ p75 ≤ p95 ∧ p95 ≤ mx := by
  have hs : (samples.insertionSort (· ≤ ·)).Sorted (· ≤ ·) := List.sorted_insertionSort _ _
  have hl := List.length_insertionSort (· ≤ ·) samples
  have h0 : 0 < (samples.insertionSort (· ≤ ·)).length := by
    rw [hl]
    exact List.length_pos.mpr hne
  have hN' : (samples.insertionSort (· ≤ ·)).length < SIZE_T := by rw [hl]; exact hN
  have hne' : samples.insertionSort (· ≤ ·) ≠ [] := List.ne_nil_of_length_pos h0
  refine ⟨(samples.insertionSort (· ≤ ·)).head hne',
    percentile_spec (samples.insertionSort (· ≤ ·)) (25 / 100),
    percentile_spec (samples.insertionSort (· ≤ ·)) (5 / 10),
    percentile_spec (samples.insertionSort (· ≤ ·)) (75 / 100),
    percentile_spec (samples.insertionSort (· ≤ ·)) (95 / 100),
    (samples.insertionSort (· ≤ ·)).getLast hne', ?_, ?_, ?_, ?_, ?_, ?_⟩
  · simp only [summary, List.head?_eq_head hne', List.getLast?_eq_getLast _ hne',
      percentile_eq_spec _ (25 / 100) h0 hN' (by norm_num) (by norm_num),
      percentile_eq_spec _ (5 / 10) h0 hN' (by norm_num) (by norm_num),
      percentile_eq_spec _ (75 / 100) h0 hN' (by norm_num) (by norm_num),
      percentile_eq_spec _ (95 / 100) h0 hN' (by norm_num) (by norm_num)]
  · exact percentile_spec_ge_head _ _ hne' hs (by norm_num) (by norm_num)
  · exact percentile_spec_mono _ _ _ h0 hs (by norm_num) (by norm_num) (by norm_num)
  · exact percentile_spec_mono _ _ _ h0 hs (by norm_num) (by norm_num) (by norm_num)
  · exact percentile_spec_mono _ _ _ h0 hs (by norm_num) (by norm_num) (by norm_num)
  · exact percentile_spec_le_last _ _ hne' hs (by norm_num) (by norm_num)

/-- C16 (percentile is bounded and monotone).  In exact rational arithmetic, for a non-empty
vector `data` sorted in non-decreasing order and `0 ≤ p ≤ q ≤ 1`,
`data[0] ≤ percentile data p ≤ percentile data q ≤ data[n-1]`.  Hence in the report, computed
on the sorted samples, `Min ≤ P25 ≤ P50 ≤ P75 ≤ P95 ≤ Max` for every non-empty sample
vector. -/
theorem percentile_bounded_monotone (data : List ℚ) (p q : ℚ) (hne : data ≠ [])
    (hN : data.length < SIZE_T) (hs : data.Sorted (· ≤ ·)) (hp : 0 ≤ p) (hpq : p ≤ q)
    (hq : q ≤ 1) :
    (∃ vp vq, percentile data p = some vp ∧ percentile data q = some vq ∧
      data.head hne ≤ vp ∧ vp ≤ vq ∧ vq ≤ data.getLast hne) ∧
    (∀ samples : List ℚ, samples ≠ [] → samples.length < SIZE_T →
      ∃ mn p25 p50 p75 p95 mx,
        summary (samples.insertionSort (· ≤ ·)) =
          ⟨some mn, some p25, some p50, some p75, some p95, some mx⟩ ∧
        mn ≤ p25 ∧ p25 ≤ p50 ∧ p50 ≤ p75 ∧ p75 ≤ p95 ∧ p95 ≤ mx) := by
  have h0 : 0 < data.length := List.length_pos.mpr hne
  have hp1 : p ≤ 1 := le_trans hpq hq
  have hq0 : 0 ≤ q := le_trans hp hpq
  refine ⟨⟨percentile_spec data p, percentile_spec data q,
    percentile_eq_spec data p h0 hN hp hp1, percentile_eq_spec data q h0 hN hq0 hq,
    percentile_spec_ge_head data p hne hs hp hp1,
    percentile_spec_mono data p q h0 hs hp hpq hq,
    percentile_spec_le_last data q hne hs hq0 hq⟩, ?_⟩
  intro samples hsne hsN
  exact summary_ordered samples hsne hsN

/-- C16 at a concrete input: the sorted vector `[1, 2, 3, 4]` with `p = 1/4` and
`q = 3/4`. -/
theorem percentile_bounded_monotone_witness :
    (∃ vp vq, percentile [1, 2, 3, 4] (1 / 4) = some vp ∧
      percentile [1, 2, 3, 4] (3 / 4) = some vq ∧
      ([1, 2, 3, 4] : List ℚ).head (by simp) ≤ vp ∧ vp ≤ vq ∧
      vq ≤ ([1, 2, 3, 4] : List ℚ).getLast (by simp)) ∧
    (∀ samples : List ℚ, samples ≠ [] → samples.length < SIZE_T →
      ∃ mn p25 p50 p75 p95 mx,
        summary (samples.insertionSort (· ≤ ·)) =
          ⟨some mn, some p25, some p50, some p75, some p95, some mx⟩ ∧
        mn ≤ p25 ∧ p25 ≤ p50 ∧ p50 ≤ p75 ∧ p75 ≤ p95 ∧ p95 ≤ mx) :=
  percentile_bounded_monotone [1, 2, 3, 4] (1 / 4) (3 / 4) (by simp) (by norm_num [SIZE_T])
    (by simp [List.Sorted]; norm_num) (by norm_num) (by norm_num) (by norm_num)

/-! ## C17: `compare_files` -/

theorem count_chars_eq (n d d' : Nat) (h : count_chars n d = some d') : d' = d + n := by
  induction n generalizing d with
  | zero =>
    simp only [count_chars, Option.some.injEq] at h
    omega
  | succ n ih =>
    unfold count_chars at h
    split at h
    · exact absurd h (by simp)
    · have := ih (d + 1) h
      omega

theorem mismatch_loop_self (l : List Byte) (d : Nat) : mismatch_loop l l d = some d := by
  induction l with
  | nil => rfl
  | cons a l ih => simp [mismatch_loop, ih]

theorem mismatch_loop_mono (l1 l2 : List Byte) (d d' : Nat)
    (h : mismatch_loop l1 l2 d = some d') : d ≤ d' := by
  induction l1 generalizing l2 d with
  | nil =>
    simp only [mismatch_loop, Option.some.injEq] at h
    omega
  | cons a l1 ih =>
    cases l2 with
    | nil =>
      simp only [mismatch_loop, Option.some.injEq] at h
      omega
    | cons b l2 =>
      unfold mismatch_loop at h
      split at h
      · split at h
        · exact absurd h (by simp)
        · have := ih l2 (d + 1) h
          omega
      · exact ih l2 d h

theorem mismatch_loop_eq_of_length (l1 l2 : List Byte) (d : Nat) (hl : l1.length = l2.length)
    (h : mismatch_loop l1 l2 d = some d) : l1 = l2 := by
  induction l1 generalizing l2 with
  | nil =>
    cases l2 with
    | nil => rfl
    | cons b l2 => simp at hl
  | cons a l1 ih =>
    cases l2 with
    | nil => simp at hl
    | cons b l2 =>
      simp only [List.length_cons, Nat.add_right_cancel_iff] at hl
      unfold mismatch_loop at h
      split at h
      · split at h
        · exact absurd h (by simp)
        · have := mismatch_loop_mono l1 l2 (d + 1) d h
          omega
      · rename_i hab
        have hab' : a = b := by
          by_contra hne
          exact hab hne
        rw [hab', ih l2 hl h]

theorem compare_loop_cons_eq (l1 l2 : List Byte) (r1 r2 : List (List Byte)) (d : Nat)
    (h : strip_cr l1 = strip_cr l2) :
    compare_loop (l1 :: r1) (l2 :: r2) d = compare_loop r1 r2 d := by
  simp [compare_loop, h, mismatch_loop_self]

theorem compare_loop_cons_ne (l1 l2 : List Byte) (r1 r2 : List (List Byte)) (d : Nat)
    (x : Nat × List (List Byte) × List (List Byte)) (hd : d < 2)
    (h : strip_cr l1 ≠ strip_cr l2) (hx : compare_loop (l1 :: r1) (l2 :: r2) d = some x) :
    ∃ d', d < d' ∧ compare_loop r1 r2 d' = some x := by
  unfold compare_loop at hx
  simp only at hx
  cases hm : mismatch_loop (strip_cr l1) (strip_cr l2) d with
  | none =>
    rw [hm] at hx
    exact absurd hx (by simp)
  | some d1 =>
    rw [hm] at hx
    simp only at hx
    have hmono := mismatch_loop_mono _ _ _ _ hm
    by_cases hlen : (strip_cr l1).length = (strip_cr l2).length
    · have hne : d1 ≠ d := by
        intro heq
        rw [heq] at hm
        exact h (mismatch_loop_eq_of_length _ _ _ hlen hm)
      simp only [hlen, ne_eq, not_true_eq_false, false_and, if_false] at hx
      exact ⟨d1, by omega, hx⟩
    · by_cases hd1 : d1 < 2
      · simp only [ne_eq, hlen, not_false_eq_true, hd1, and_self, if_true] at hx
        cases hc : count_chars (max (strip_cr l1).length (strip_cr l2).length -
            min (strip_cr l1).length (strip_cr l2).length) d1 with
        | none =>
          rw [hc] at hx
          exact absurd hx (by simp)
        | some d2 =>
          rw [hc] at hx
          have := count_chars_eq _ _ _ hc
          refine ⟨d2, ?_, hx⟩
          have hmm : min (strip_cr l1).length (strip_cr l2).length <
              max (strip_cr l1).length (strip_cr l2).length := by omega
          omega
      · simp only [ne_eq, hlen, not_false_eq_true, hd1, and_false, if_false] at hx
        exact ⟨d1, by omega, hx⟩

theorem compare_loop_mono (lines1 lines2 : List (List Byte)) (d : Nat)
    (x : Nat × List (List Byte) × List (List Byte))
    (hx : compare_loop lines1 lines2 d = some x) : d ≤ x.1 := by
  induction lines1 generalizing lines2 d with
  | nil =>
    simp only [compare_loop, Option.some.injEq] at hx
    rw [← hx]
  | cons l1 r1 ih =>
    cases lines2 with
    | nil =>
      simp only [compare_loop, Option.some.injEq] at hx
      rw [← hx]
    | cons l2 r2 =>
      unfold compare_loop at hx
      simp only at hx
      cases hm : mismatch_loop (strip_cr l1) (strip_cr l2) d with
      | none =>
        rw [hm] at hx
        exact absurd hx (by simp)
      | some d1 =>
        rw [hm] at hx
        simp only at hx
        have hmono := mismatch_loop_mono _ _ _ _ hm
        split at hx
        · cases hc : count_chars (max (strip_cr l1).length (strip_cr l2).length -
              min (strip_cr l1).length (strip_cr l2).length) d1 with
          | none =>
            rw [hc] at hx
            exact absurd hx (by simp)
          | some d2 =>
            rw [hc] at hx
            have := count_chars_eq _ _ _ hc
            have := ih r2 d2 hx
            omega
        · have := ih r2 d1 hx
          omega

theorem compare_loop_same_count (lines1 lines2 : List (List Byte))
    (hl : lines1.length = lines2.length) :
    (∀ x, compare_loop lines1 lines2 0 = some x → x.2.1 = [] ∧ x.2.2 = []) ∧
    (compare_loop lines1 lines2 0 = some (0, [], []) ↔
      lines1.map strip_cr = lines2.map strip_cr) := by
  have rests : ∀ (ls1 ls2 : List (List Byte)) (d : Nat), ls1.length = ls2.length →
      ∀ x, compare_loop ls1 ls2 d = some x → x.2.1 = [] ∧ x.2.2 = [] := by
    intro ls1
    induction ls1 with
    | nil =>
      intro ls2 d h x hx
      have h2 : ls2 = [] := List.length_eq_zero.mp h.symm
      subst h2
      simp only [compare_loop, Option.some.injEq] at hx
      rw [← hx]
      exact ⟨rfl, rfl⟩
    | cons l1 r1 ih =>
      intro ls2 d h x hx
      cases ls2 with
      | nil => simp at h
      | cons l2 r2 =>
        simp only [List.length_cons, Nat.add_right_cancel_iff] at h
        unfold compare_loop at hx
        simp only at hx
        cases hm : mismatch_loop (strip_cr l1) (strip_cr l2) d with
        | none =>
          rw [hm] at hx
          exact absurd hx (by simp)
        | some d1 =>
          rw [hm] at hx
          simp only at hx
          split at hx
          · cases hc : count_chars (max (strip_cr l1).length (strip_cr l2).length -
                min (strip_cr l1).length (strip_cr l2).length) d1 with
            | none =>
              rw [hc] at hx
              exact absurd hx (by simp)
            | some d2 =>
              rw [hc] at hx
              exact ih r2 d2 h x hx
          · exact ih r2 d1 h x hx
  refine ⟨rests lines1 lines2 0 hl, ?_⟩
  induction lines1 generalizing lines2 with
  | nil =>
    have h2 : lines2 = [] := List.length_eq_zero.mp hl.symm
    subst h2
    simp [compare_loop]
  | cons l1 r1 ih =>
    cases lines2 with
    | nil => simp at hl
    | cons l2 r2 =>
      simp only [List.length_cons, Nat.add_right_cancel_iff] at hl
      by_cases hs : strip_cr l1 = strip_cr l2
      · rw [compare_loop_cons_eq l1 l2 r1 r2 0 hs, ih r2 hl]
        simp [hs]
      · constructor
        · intro hx
          obtain ⟨d', hd', hx'⟩ := compare_loop_cons_ne l1 l2 r1 r2 0 _ (by decide) hs hx
          have := compare_loop_mono r1 r2 d' _ hx'
          simp only at this
          omega
        · intro hmap
          simp only [List.map_cons, List.cons.injEq] at hmap
          exact absurd hmap.1 hs

/-- On two files with the same number of lines `compare_files` is the line-wise comparison:
it returns `true` exactly when corresponding lines are equal after one trailing carriage
return has been removed from each. -/
theorem compare_files_same_count (f1 f2 : List Byte)
    (hl : (getlines f1).length = (getlines f2).length) :
    compare_files (some f1) (some f2) = true ↔
      (getlines f1).map strip_cr = (getlines f2).map strip_cr := by
  obtain ⟨hrest, hiff⟩ := compare_loop_same_count (getlines f1) (getlines f2) hl
  rw [← hiff]
  unfold compare_files
  simp only
  cases hc : compare_loop (getlines f1) (getlines f2) 0 with
  | none => simp
  | some x =>
    obtain ⟨d, r1, r2⟩ := x
    obtain ⟨h1, h2⟩ := hrest _ hc
    simp only at h1 h2
    subst h1
    subst h2
    simp [extra_loop]

/-- C17, evaluated at the failing input.  The first file holds the lines `a` and `b`, the
second file the line `a` only.  `compare_files` returns `true` ("Files are identical."): the
loop condition has read the extra line `b` before `getline` fails on the second file, and
that line is never reported.  With the files exchanged the result is `false`, so the function
is not symmetric.  An extra empty line is not reported in either order. -/
theorem compare_files_misses_extra_line :
    getlines [97, 10, 98, 10] = [[97], [98]] ∧ getlines [97, 10] = [[97]] ∧
    compare_files (some [97, 10, 98, 10]) (some [97, 10]) = true ∧
    compare_files (some [97, 10]) (some [97, 10, 98, 10]) = false ∧
    compare_files (some [97, 10]) (some [97, 10, 10]) = true ∧
    compare_files (some [97, 10, 10]) (some [97, 10]) = true := by
  refine ⟨by decide, by decide, by decide, by decide, by decide, by decide⟩

end KCompress
